import Mathlib

/-!
Verification of the incremental splitter engine of the `linesep` library
(`src/linesep/splitters.py`) and of the one-shot splitting helpers
(`src/linesep/__init__.py`).

Strings (`str`/`bytes` in the source) are modelled as lists of characters.
The mutable `Splitter` object is modelled as a record `St` of its five
fields (`_items`, `_buff`, `_hold`, `_closed`, `_first`); each method
becomes a function from states to states.  The scan loop `Splitter._split`
is modelled with an explicit fuel argument; every caller passes
`buffer length + 1`, which is enough fuel whenever the separator is
non-empty (the constructor rejects empty separators).  Python `assert`
statements inside the segment/separator handlers are modelled by the
handlers returning `none`; a raised `SplitterClosedError` is modelled by a
dedicated result constructor carrying the state at the moment of the raise.
-/

namespace Linesep

/-- Characters of a Python `str`, modelled as a list of characters. -/
abbrev Str := List Char

/-- Shorthand turning a Lean string literal into the model type. -/
def strL (s : String) : Str := s.data

/-- Model of Python `data.index(sep)` (`splitters.py` line 248) wrapped in
`try/except`: the least index at which `sep` occurs as a contiguous
substring of the argument, or `none` when there is no occurrence.  Like
Python, an empty `sep` is found at index 0. -/
def strIndex (sep : Str) : Str → Option Nat
  | [] => if sep = [] then some 0 else none
  | c :: t =>
      if sep.isPrefixOf (c :: t) then some 0
      else (strIndex sep t).map (· + 1)

/-- Leftmost match of the regex `\r\n?|\n` (`splitters.py` lines 356/360):
start index, end index, and matched text.  At a `'\r'` the alternative
`\r\n?` matches greedily (two characters when an `'\n'` follows, else one);
otherwise a `'\n'` matches alone. -/
def nlSearch : Str → Option (Nat × Nat × Str)
  | [] => none
  | c :: t =>
      if c = '\r' then
        match t with
        | '\n' :: _ => some (0, 2, ['\r', '\n'])
        | _ => some (0, 1, ['\r'])
      else if c = '\n' then some (0, 1, ['\n'])
      else (nlSearch t).map (fun p => (p.1 + 1, p.2.1 + 1, p.2.2))

/-- Identity of a splitter subclass together with its constructor data:
`TerminatedSplitter`, `SeparatedSplitter` and `PrecededSplitter` carry the
literal separator of `ConstantSplitter.__init__`; `UniversalNewlineSplitter`
carries its `translate` flag. -/
inductive Variant where
  | terminated (sep : Str)
  | separated (sep : Str)
  | preceded (sep : Str)
  | universalNewline (translate : Bool)
deriving DecidableEq

/-- Construction parameters of a splitter: its variant and the `retain`
flag shared by all four subclasses. -/
structure Cfg where
  variant : Variant
  retain : Bool
deriving DecidableEq

/-- Validity of the construction parameters: `ConstantSplitter.__init__`
raises `ValueError` on an empty separator, so a constructed constant
splitter always has a non-empty one; `UniversalNewlineSplitter` has no
separator argument. -/
def validCfg (cfg : Cfg) : Bool :=
  match cfg.variant with
  | .terminated sep | .separated sep | .preceded sep => !sep.isEmpty
  | .universalNewline _ => true

/-- Model of `ConstantSplitter.__init__` (`splitters.py` lines 232-244):
`none` models the `ValueError` raised on an empty separator. -/
def constantSplitterInit (mk : Str → Variant) (sep : Str) (retain : Bool) :
    Option Cfg :=
  if sep = [] then none else some ⟨mk sep, retain⟩

/-- Internal state of a `Splitter` (`splitters.py` lines 19-30): the output
queue `_items` (head = oldest), the unsplit input buffer `_buff`
(`none` models Python `None`), the hold slot `_hold`, the `_closed` flag and
the `_first` flag. -/
structure St where
  items : List Str
  buff : Option Str
  hold : Option Str
  closed : Bool
  first : Bool
deriving DecidableEq

/-- State of a freshly constructed splitter (`Splitter.__init__`). -/
def initSt : St := ⟨[], none, none, false, true⟩

/-- Model of the `SplitterState` dataclass returned by
`Splitter.getstate` (`splitters.py` lines 455-478). -/
structure SplitterState where
  items : List Str
  buff : Option Str
  hold : Option Str
  closed : Bool
  first : Bool
deriving DecidableEq

/-- Model of `Splitter.getstate` (`splitters.py` lines 163-171). -/
def getstate (s : St) : SplitterState :=
  ⟨s.items, s.buff, s.hold, s.closed, s.first⟩

/-- Model of `Splitter.setstate` (`splitters.py` lines 173-183): the whole
state is overwritten with the snapshot's values. -/
def setstate (st : SplitterState) (_ : St) : St :=
  ⟨st.items, st.buff, st.hold, st.closed, st.first⟩

/-- Model of `Splitter._output`: append an item at the tail of the queue. -/
def output (q : List Str) (item : Str) : List Str := q ++ [item]

/-- Model of `_find_separator` of each subclass, as a function of the
variant, the `_closed` flag (read by `UniversalNewlineSplitter`) and the
data scanned.  `ConstantSplitter._find_separator` (lines 246-252) returns
`(i, i + len(separator))` for the leftmost occurrence;
`UniversalNewlineSplitter._find_separator` (lines 352-368) searches
`\r\n?|\n` and withholds a match that is a bare `'\r'` at the very end of
the data while the splitter is not closed. -/
def findSeparator (cfg : Cfg) (closed : Bool) (data : Str) :
    Option (Nat × Nat) :=
  match cfg.variant with
  | .terminated sep | .separated sep | .preceded sep =>
      (strIndex sep data).map (fun i => (i, i + sep.length))
  | .universalNewline _ =>
      match nlSearch data with
      | some (st, en, g) =>
          if g = ['\r'] ∧ en = data.length ∧ closed = false then none
          else some (st, en)
      | none => none

/-- Model of `_handle_segment` of each subclass, acting on the pair
(queue, hold slot); `none` models a failed `assert` on the hold slot.
Terminated (lines 262-270) and universal-newline (lines 370-378) have
identical segment handlers; `SeparatedSplitter` (lines 294-297) always
emits; `PrecededSplitter` (lines 311-322) special-cases the first
segment. -/
def handleSegment (cfg : Cfg) (item : Str) (first last : Bool)
    (q : List Str) (hold : Option Str) : Option (List Str × Option Str) :=
  match cfg.variant with
  | .terminated _ | .universalNewline _ =>
      if !last || !item.isEmpty then
        if cfg.retain && !last then
          match hold with
          | none => some (q, some item)
          | some _ => none
        else some (output q item, hold)
      else some (q, hold)
  | .separated _ => some (output q item, hold)
  | .preceded _ =>
      if first then
        if !item.isEmpty then some (output q item, hold) else some (q, hold)
      else if cfg.retain then
        match hold with
        | some h => some (output q (h ++ item), none)
        | none => none
      else some (output q item, hold)

/-- Model of `_handle_separator` of each subclass, acting on the pair
(queue, hold slot); `none` models a failed `assert` on the hold slot.
`UniversalNewlineSplitter` (lines 380-387) first replaces the matched text
by `"\n"` when `translate` is set (its `assert self._strs is not None`
cannot fail, because `_find_separator` always runs first and populates
`_strs`). -/
def handleSeparator (cfg : Cfg) (item : Str)
    (q : List Str) (hold : Option Str) : Option (List Str × Option Str) :=
  match cfg.variant with
  | .terminated _ =>
      if cfg.retain then
        match hold with
        | some h => some (output q (h ++ item), none)
        | none => none
      else some (q, hold)
  | .separated _ =>
      if cfg.retain then some (output q item, hold) else some (q, hold)
  | .preceded _ =>
      if cfg.retain then
        match hold with
        | none => some (q, some item)
        | some _ => none
      else some (q, hold)
  | .universalNewline translate =>
      if cfg.retain then
        let item' := if translate then ['\n'] else item
        match hold with
        | some h => some (output q (h ++ item'), none)
        | none => none
      else some (q, hold)

/-- Result of running a method that can raise: `ok` is a normal return,
`closedError` a raised `SplitterClosedError`, `assertError` a failed
internal `assert`; the carried state is the splitter's state at the moment
of the return or raise. -/
inductive Res where
  | ok (s : St)
  | closedError (s : St)
  | assertError (s : St)
deriving DecidableEq

/-- Model of the trailing conditional of `Splitter._split` (lines 73-75):
once closed, a present buffer (even an empty string, which Python treats
as distinct from `None`) is handed to the segment handler as the last
segment and the buffer is cleared to `None`. -/
def flushClose (cfg : Cfg) (s : St) : Res :=
  if s.closed then
    match s.buff with
    | some b =>
        match handleSegment cfg b s.first true s.items s.hold with
        | some (q, h) => .ok { s with items := q, hold := h, buff := none }
        | none => .assertError s
    | none => .ok s
  else .ok s

/-- Model of the `while` loop of `Splitter._split` (lines 62-75), with
explicit fuel.  Each iteration searches the buffer, hands the prefix to the
segment handler (with the current `_first` flag and `last = False`), clears
`_first`, hands the matched text to the separator handler and drops the
consumed prefix from the buffer.  Fuel exhaustion (impossible for valid
configurations when called with `buffer length + 1`, since every match
consumes at least one character) is reported like a failed assertion, which
also stands in for the infinite loop Python would enter on an empty
separator. -/
def splitLoop (cfg : Cfg) : Nat → St → Res
  | 0, s => .assertError s
  | fuel + 1, s =>
      match s.buff with
      | none => flushClose cfg s
      | some b =>
          if b.isEmpty then flushClose cfg s
          else
            match findSeparator cfg s.closed b with
            | none => flushClose cfg s
            | some (st, en) =>
                match handleSegment cfg (b.take st) s.first false
                    s.items s.hold with
                | none => .assertError s
                | some (q₁, h₁) =>
                    let s₁ : St :=
                      { s with items := q₁, hold := h₁, first := false }
                    match handleSeparator cfg ((b.drop st).take (en - st))
                        s₁.items s₁.hold with
                    | none => .assertError s₁
                    | some (q₂, h₂) =>
                        splitLoop cfg fuel
                          { s₁ with items := q₂, hold := h₂,
                                    buff := some (b.drop en) }

/-- Model of `Splitter.feed` (lines 77-91): raise `SplitterClosedError`
when closed (before touching any state), otherwise append the data to the
buffer and run the scan loop. -/
def feed (cfg : Cfg) (data : Str) (s : St) : Res :=
  if s.closed then .closedError s
  else
    let b : Str :=
      match s.buff with
      | none => data
      | some b₀ => b₀ ++ data
    splitLoop cfg (b.length + 1) { s with buff := some b }

/-- Model of `Splitter.close` (lines 133-145): set `_closed`, then run the
scan loop only when the buffer is present. -/
def close (cfg : Cfg) (s : St) : Res :=
  let s₁ : St := { s with closed := true }
  match s₁.buff with
  | none => .ok s₁
  | some b => splitLoop cfg (b.length + 1) s₁

/-- Model of `Splitter.get` (lines 93-102): pop the oldest queued item;
`none` models the raised `SplitterEmptyError` (which mutates nothing). -/
def get (s : St) : Option (Str × St) :=
  match s.items with
  | [] => none
  | x :: rest => some (x, { s with items := rest })

/-- Model of `Splitter.getall` (lines 109-113): return every queued item in
order and clear the queue. -/
def getall (s : St) : List Str × St := (s.items, { s with items := [] })

/-- Model of `Splitter.reset` (lines 152-161). -/
def reset (_ : St) : St := initSt

/-- Sequencing of results: run the continuation on a normal return,
propagate a raise unchanged. -/
def bindRes (r : Res) (f : St → Res) : Res :=
  match r with
  | .ok s => f s
  | e => e

/-- Feed a list of chunks in order. -/
def runFeeds (cfg : Cfg) : List Str → St → Res
  | [], s => .ok s
  | c :: rest, s => bindRes (feed cfg c s) (runFeeds cfg rest)

/-- Feed a list of chunks to a fresh splitter, then close it. -/
def runChunks (cfg : Cfg) (chunks : List Str) : Res :=
  bindRes (runFeeds cfg chunks initSt) (close cfg)

/-- Queue contents of a normal result, `none` on a raise. -/
def itemsOf : Res → Option (List Str)
  | .ok s => some s.items
  | _ => none

/-- Public operations considered for reachability: feeding, closing,
pulling one item, draining all items, and resetting. -/
inductive Op where
  | feed (data : Str)
  | close
  | get
  | getall
  | reset

/-- Effect of one public operation on the state.  A raised
`SplitterClosedError` or `SplitterEmptyError` propagates to the caller and
leaves the splitter state as carried by the raise; a failed internal
`assert` yields `none`. -/
def applyOp (cfg : Cfg) : Op → St → Option St
  | .feed d, s =>
      match feed cfg d s with
      | .ok s' => some s'
      | .closedError s' => some s'
      | .assertError _ => none
  | .close, s =>
      match close cfg s with
      | .ok s' => some s'
      | .closedError s' => some s'
      | .assertError _ => none
  | .get, s =>
      some (match get s with
            | some (_, s') => s'
            | none => s)
  | .getall, s => some (getall s).2
  | .reset, s => some (reset s)

/-- Run a sequence of public operations; `none` as soon as an internal
assertion fails. -/
def runOps (cfg : Cfg) : List Op → St → Option St
  | [], s => some s
  | op :: rest, s =>
      match applyOp cfg op s with
      | some s' => runOps cfg rest s'
      | none => none

/-- Model of the successive matches of `finditer` over the escaped literal
separator in `split_separated` (`__init__.py` lines 186-214), with fuel:
the produced entries alternate between segments and (when retaining) the
matched separator text, and end with the unmatched tail. -/
def splitSeparatedFuel (sep : Str) (retain : Bool) : Nat → Str → List Str
  | 0, s => [s]
  | fuel + 1, s =>
      match strIndex sep s with
      | none => [s]
      | some i =>
          s.take i ::
            ((if retain then [(s.drop i).take sep.length] else []) ++
              splitSeparatedFuel sep retain fuel (s.drop (i + sep.length)))

/-- Model of `split_separated` (`__init__.py` lines 186-214) for a literal
separator. -/
def split_separated (s sep : Str) (retain : Bool) : List Str :=
  splitSeparatedFuel sep retain (s.length + 1) s

/-- Model of `_join_pairs` (`__init__.py` lines 318-332). -/
def joinPairs : List Str → List Str
  | [] => []
  | [a] => [a]
  | a :: b :: rest => (a ++ b) :: joinPairs rest

/-- Model of `split_preceded` (`__init__.py` lines 161-184): split on the
separator, glue each separator onto the following segment when retaining,
and drop an empty leading entry.  The list produced by `split_separated` is
never empty, so the empty case is unreachable. -/
def split_preceded (s sep : Str) (retain : Bool) : List Str :=
  let e := split_separated s sep retain
  let e := if retain then e.take 1 ++ joinPairs (e.drop 1) else e
  match e with
  | [] => []
  | x :: rest => if x.isEmpty then rest else x :: rest

/-- Model of `split_terminated` (`__init__.py` lines 216-239): split on the
separator, glue each separator onto the preceding segment when retaining,
and drop an empty trailing entry. -/
def split_terminated (s sep : Str) (retain : Bool) : List Str :=
  let e := split_separated s sep retain
  let e := if retain then joinPairs e else e
  if e.getLast? = some [] then e.dropLast else e

/-- Successive leftmost occurrences of the literal separator in a string
(the reference splitting the scan loop computes): the list of segments
between occurrences and the unmatched tail, with the same fuel discipline
as `splitLoop`. -/
def tokens (sep : Str) : Nat → Str → List Str × Str
  | 0, X => ([], X)
  | fuel + 1, X =>
      if X.isEmpty then ([], X)
      else
        match strIndex sep X with
        | none => ([], X)
        | some i =>
            let p := tokens sep fuel (X.drop (i + sep.length))
            (X.take i :: p.1, p.2)

/-- Items a `SeparatedSplitter` emits for a list of complete segments:
every segment, followed by the separator when retaining. -/
def sepOut (retain : Bool) (sep : Str) : List Str → List Str
  | [] => []
  | a :: rest => a :: ((if retain then [sep] else []) ++ sepOut retain sep rest)

/-- Items a `TerminatedSplitter` emits for a list of complete segments:
every segment, with the separator glued on when retaining. -/
def termOut (retain : Bool) (sep : Str) (segs : List Str) : List Str :=
  segs.map (fun a => if retain then a ++ sep else a)

/-- Items a `PrecededSplitter` emits for a list of complete segments,
given the current first-segment flag and hold slot: a first segment is
emitted only when non-empty, later segments get the held separator glued
on when retaining. -/
def precOut (sep : Str) (retain : Bool) : Bool → Option Str → List Str → List Str
  | _, _, [] => []
  | f, h, a :: rest =>
      (if f then (if a.isEmpty then [] else [a])
       else if retain then [h.getD [] ++ a] else [a]) ++
        precOut sep retain false (some sep) rest

/-- Discipline of the hold slot at public-operation boundaries: empty for
every variant except a retaining `PrecededSplitter`, where it holds the
pending separator exactly between the first separator match and the final
flush. -/
def holdInv (cfg : Cfg) (s : St) : Prop :=
  match cfg.variant with
  | .preceded _ =>
      if cfg.retain then (s.hold = none ↔ (s.first = true ∨ s.buff = none))
      else s.hold = none
  | _ => s.hold = none

/-- Discriminator for the three constant-separator subclasses of
`ConstantSplitter`, as opposed to `UniversalNewlineSplitter`. -/
def isConstant : Variant → Bool
  | .terminated _ | .separated _ | .preceded _ => true
  | .universalNewline _ => false

/-- Reachability invariant of a splitter state under the public
operations: once closed the buffer is gone; a present buffer of a
constant-separator splitter holds no further separator occurrence (the
scan loop always exhausts them); and the hold slot obeys the per-variant
discipline — empty everywhere except in a retaining `PrecededSplitter`,
which holds the pending separator exactly after the first separator match
and before the final flush. -/
def FullInv (cfg : Cfg) (s : St) : Prop :=
  (s.closed = true → s.buff = none) ∧
  (match cfg.variant with
   | .terminated sep | .separated sep | .preceded sep =>
       ∀ b, s.buff = some b → strIndex sep b = none
   | .universalNewline _ => True) ∧
  (match cfg.variant with
   | .preceded _ =>
       if cfg.retain then
         (s.hold = none ↔ (s.first = true ∨ s.closed = true)) ∧
         (s.closed = false → s.buff = none → s.first = true)
       else s.hold = none
   | _ => s.hold = none)

example :
    itemsOf (runChunks ⟨.terminated (strL "\n"), false⟩ [strL "foo\nbar"]) =
      some [strL "foo", strL "bar"] := by decide

example :
    itemsOf (runChunks ⟨.separated (strL "\n"), true⟩ [strL "\n\n"]) =
      some [[], strL "\n", [], strL "\n", []] := by decide

example :
    itemsOf (runChunks ⟨.preceded (strL "\n"), true⟩ [strL "\nfoo"]) =
      some [strL "\nfoo"] := by decide

example :
    itemsOf (runChunks ⟨.universalNewline true, true⟩
      [strL "foo\r", strL "\nbar"]) = some [strL "foo\n", strL "bar"] := by
  decide

example : split_terminated (strL "a\nb\n") (strL "\n") true =
    [strL "a\n", strL "b\n"] := by decide

example : split_preceded (strL "\nfoo") (strL "\n") true =
    [strL "\nfoo"] := by decide

/-! Basic facts about the substring search. -/

lemma strIndex_isPrefixOf {sep : Str} :
    ∀ {X : Str} {i : Nat}, strIndex sep X = some i →
      sep.isPrefixOf (X.drop i) = true := by
  intro X
  induction X with
  | nil =>
      intro i h
      simp only [strIndex] at h
      split at h
      next hsep =>
        cases h
        subst hsep
        rfl
      next => cases h
  | cons c t ih =>
      intro i h
      simp only [strIndex] at h
      split at h
      next hp =>
        cases h
        simpa using hp
      next hp =>
        rcases Option.map_eq_some'.1 h with ⟨j, hj, rfl⟩
        simpa using ih hj

lemma strIndex_le_length {sep : Str} :
    ∀ {X : Str} {i : Nat}, strIndex sep X = some i → i ≤ X.length := by
  intro X
  induction X with
  | nil =>
      intro i h
      simp only [strIndex] at h
      split at h
      · cases h; simp
      · cases h
  | cons c t ih =>
      intro i h
      simp only [strIndex] at h
      split at h
      · cases h; simp
      · rcases Option.map_eq_some'.1 h with ⟨j, hj, rfl⟩
        simpa [Nat.succ_le_succ_iff] using ih hj

lemma strIndex_add_length_le {sep X : Str} {i : Nat}
    (h : strIndex sep X = some i) : i + sep.length ≤ X.length := by
  have h₁ := List.isPrefixOf_iff_prefix.1 (strIndex_isPrefixOf h)
  have h₂ := h₁.length_le
  have h₃ := strIndex_le_length h
  simp only [List.length_drop] at h₂
  omega

lemma isPrefixOf_take {sep l : Str} (h : sep.isPrefixOf l = true) :
    l.take sep.length = sep := by
  have h₁ := List.isPrefixOf_iff_prefix.1 h
  rcases h₁ with ⟨t, rfl⟩
  simp

lemma strIndex_append {sep : Str} (hsep : sep ≠ []) :
    ∀ {X : Str} {i : Nat} (b : Str), strIndex sep X = some i →
      strIndex sep (X ++ b) = some i := by
  intro X
  induction X with
  | nil =>
      intro i b h
      simp only [strIndex] at h
      split at h
      next hs => exact absurd hs hsep
      next => cases h
  | cons c t ih =>
      intro i b h
      simp only [strIndex] at h
      split at h
      next hp =>
        cases h
        have hp' : sep.isPrefixOf (c :: (t ++ b)) = true := by
          rw [List.isPrefixOf_iff_prefix] at hp ⊢
          exact hp.trans (by rw [← List.cons_append]; exact List.prefix_append _ _)
        rw [List.cons_append]
        simp only [strIndex]
        rw [if_pos hp']
      next hnp =>
        rcases Option.map_eq_some'.1 h with ⟨j, hj, rfl⟩
        have hlen : sep.length ≤ (c :: t).length := by
          have := strIndex_add_length_le hj
          simp only [List.length_cons]
          omega
        have hnp' : ¬ sep.isPrefixOf (c :: (t ++ b)) = true := by
          rw [List.isPrefixOf_iff_prefix] at hnp ⊢
          rw [← List.cons_append, List.isPrefix_append_of_length hlen]
          exact hnp
        rw [List.cons_append]
        simp only [strIndex]
        rw [if_neg hnp', ih b hj]
        rfl

/-- Matched text of a constant-separator occurrence is the separator. -/
lemma sepText_eq {sep X : Str} {i : Nat} (h : strIndex sep X = some i) :
    (X.drop i).take (i + sep.length - i) = sep := by
  have : i + sep.length - i = sep.length := by omega
  rw [this]
  exact isPrefixOf_take (strIndex_isPrefixOf h)

/-! Basic facts about the universal-newline search. -/

lemma nlSearch_bounds :
    ∀ {b : Str} {st en : Nat} {g : Str}, nlSearch b = some (st, en, g) →
      st < en ∧ en ≤ b.length := by
  intro b
  induction b with
  | nil => intro st en g h; cases h
  | cons c t ih =>
      intro st en g h
      simp only [nlSearch] at h
      split at h
      · split at h <;>
        · cases h
          refine ⟨by omega, ?_⟩
          simp only [List.length_cons]
          omega
      · split at h
        · cases h
          exact ⟨by omega, by simp⟩
        · rcases Option.map_eq_some'.1 h with ⟨⟨st', en', g'⟩, hj, heq⟩
          cases heq
          have := ih hj
          simp only [List.length_cons]
          omega

lemma nlSearch_none_append {y : Str} :
    ∀ {x : Str}, nlSearch x = none →
      nlSearch (x ++ y) =
        (nlSearch y).map (fun p => (p.1 + x.length, p.2.1 + x.length, p.2.2)) := by
  intro x
  induction x with
  | nil =>
      intro _
      simp
  | cons c t ih =>
      intro h
      simp only [nlSearch] at h
      split at h
      · split at h <;> cases h
      · split at h
        · cases h
        next hc hn =>
          have ht : nlSearch t = none := Option.map_eq_none'.1 h
          have step : nlSearch (c :: (t ++ y)) =
              (nlSearch (t ++ y)).map
                (fun p => (p.1 + 1, p.2.1 + 1, p.2.2)) := by
            simp only [nlSearch, if_neg hc, if_neg hn]
          rw [List.cons_append, step, ih ht]
          rcases nlSearch y with _ | ⟨st, en, g⟩
          · rfl
          · simp only [Option.map_some', List.length_cons, Nat.add_assoc]

/-! Bounds of `_find_separator` matches for valid configurations. -/

lemma constantFind_bounds {sep b : Str} {st en : Nat} (hsep : sep ≠ [])
    (h : (strIndex sep b).map (fun i => (i, i + sep.length)) = some (st, en)) :
    st < en ∧ en ≤ b.length := by
  rcases hi : strIndex sep b with _ | i <;> rw [hi] at h
  · cases h
  · simp only [Option.map_some'] at h
    cases h
    have h₁ := strIndex_add_length_le hi
    have h₃ : 0 < sep.length := List.length_pos.2 hsep
    exact ⟨by omega, h₁⟩

lemma findSeparator_bounds {cfg : Cfg} {c : Bool} {b : Str} {st en : Nat}
    (hv : validCfg cfg = true) (h : findSeparator cfg c b = some (st, en)) :
    st < en ∧ en ≤ b.length := by
  obtain ⟨v, r⟩ := cfg
  cases v with
  | universalNewline t =>
      simp only [findSeparator] at h
      rcases hnl : nlSearch b with _ | ⟨st', en', g⟩ <;> rw [hnl] at h
      · cases h
      · replace h :
            (if g = ['\r'] ∧ en' = b.length ∧ c = false then none
             else some (st', en')) = some (st, en) := h
        by_cases hcond : g = ['\r'] ∧ en' = b.length ∧ c = false
        · rw [if_pos hcond] at h; cases h
        · rw [if_neg hcond] at h
          cases h
          exact nlSearch_bounds hnl
  | terminated sep =>
      simp only [findSeparator] at h
      exact constantFind_bounds (by simpa [validCfg] using hv) h
  | separated sep =>
      simp only [findSeparator] at h
      exact constantFind_bounds (by simpa [validCfg] using hv) h
  | preceded sep =>
      simp only [findSeparator] at h
      exact constantFind_bounds (by simpa [validCfg] using hv) h

/-! The scan loop never raises `SplitterClosedError`. -/

lemma flushClose_ne_closedError (cfg : Cfg) (s t : St) :
    flushClose cfg s ≠ .closedError t := by
  unfold flushClose
  split
  · split
    · split
      · intro h; cases h
      · intro h; cases h
    · intro h; cases h
  · intro h; cases h

lemma splitLoop_ne_closedError (cfg : Cfg) :
    ∀ (fuel : Nat) (s t : St), splitLoop cfg fuel s ≠ .closedError t := by
  intro fuel
  induction fuel with
  | zero => intro s t h; cases h
  | succ n ih =>
      intro s t
      simp only [splitLoop]
      split
      · exact flushClose_ne_closedError cfg s t
      · split
        · exact flushClose_ne_closedError cfg s t
        · split
          · exact flushClose_ne_closedError cfg s t
          · split
            · intro h; cases h
            · split
              · intro h; cases h
              · exact ih _ t

/-! Safety of the hold-slot assertions along every public-operation
sequence. -/

lemma flushClose_unl_ok (t retain : Bool) (q : List Str) (ob : Option Str)
    (oc of : Bool) :
    ∃ q', flushClose ⟨.universalNewline t, retain⟩ ⟨q, ob, none, oc, of⟩ =
      .ok ⟨q', (if oc = true then none else ob), none, oc, of⟩ := by
  by_cases hc : oc = true
  · subst hc
    rcases ob with _ | b
    · exact ⟨q, rfl⟩
    · by_cases hbe : b.isEmpty = true
      · refine ⟨q, ?_⟩
        simp [flushClose, handleSegment, hbe]
      · refine ⟨q ++ [b], ?_⟩
        simp [flushClose, handleSegment, hbe, output]
  · have hcf : oc = false := by
      rcases oc with _ | _
      · rfl
      · exact absurd rfl hc
    subst hcf
    exact ⟨q, by simp [flushClose]⟩

lemma flushClose_term_ok (sep : Str) (retain : Bool) (q : List Str)
    (ob : Option Str) (oc of : Bool) :
    ∃ q', flushClose ⟨.terminated sep, retain⟩ ⟨q, ob, none, oc, of⟩ =
      .ok ⟨q', (if oc = true then none else ob), none, oc, of⟩ := by
  by_cases hc : oc = true
  · subst hc
    rcases ob with _ | b
    · exact ⟨q, rfl⟩
    · by_cases hbe : b.isEmpty = true
      · refine ⟨q, ?_⟩
        simp [flushClose, handleSegment, hbe]
      · refine ⟨q ++ [b], ?_⟩
        simp [flushClose, handleSegment, hbe, output]
  · have hcf : oc = false := by
      rcases oc with _ | _
      · rfl
      · exact absurd rfl hc
    subst hcf
    exact ⟨q, by simp [flushClose]⟩

lemma flushClose_prec_ok (sep : Str) (retain : Bool) (q : List Str)
    (b : Str) (oh : Option Str) (of : Bool)
    (hpre : retain = true → (oh = none ↔ of = true))
    (hpre2 : retain = false → oh = none) :
    ∃ q', flushClose ⟨.preceded sep, retain⟩ ⟨q, some b, oh, true, of⟩ =
      .ok ⟨q', none, none, true, of⟩ := by
  by_cases hof : of = true
  · subst hof
    have hohn : oh = none := by
      by_cases hr : retain = true
      · exact (hpre hr).mpr rfl
      · exact hpre2 (by rcases retain with _ | _ <;> simp_all)
    subst hohn
    by_cases hbe : b.isEmpty = true
    · exact ⟨q, by simp [flushClose, handleSegment, hbe]⟩
    · exact ⟨q ++ [b], by simp [flushClose, handleSegment, hbe, output]⟩
  · have hoff : of = false := by
      rcases of with _ | _
      · rfl
      · exact absurd rfl hof
    subst hoff
    by_cases hr : retain = true
    · subst hr
      rcases oh with _ | hh
      · exact absurd ((hpre rfl).mp rfl) (by simp)
      · exact ⟨q ++ [hh ++ b], by simp [flushClose, handleSegment, output]⟩
    · have hrf : retain = false := by
        rcases retain with _ | _
        · rfl
        · exact absurd rfl hr
      subst hrf
      have hohn : oh = none := hpre2 rfl
      subst hohn
      exact ⟨q ++ [b], by simp [flushClose, handleSegment, output]⟩

lemma splitLoop_unl_ok (t retain : Bool) :
    ∀ (fuel : Nat) (q : List Str) (ob : Option Str) (oc of : Bool),
      (ob.getD []).length < fuel →
      ∃ q' ob' of', splitLoop ⟨.universalNewline t, retain⟩ fuel
          ⟨q, ob, none, oc, of⟩ = .ok ⟨q', ob', none, oc, of'⟩ ∧
        (oc = true → ob' = none) := by
  intro fuel
  induction fuel with
  | zero => intro q ob oc of hf; omega
  | succ n ih =>
      intro q ob oc of hf
      rcases ob with _ | b
      · obtain ⟨q', hq⟩ := flushClose_unl_ok t retain q none oc of
        refine ⟨q', (if oc = true then none else none), of, ?_, ?_⟩
        · simp only [splitLoop]
          rw [hq]
        · intro hc; simp
      · simp only [Option.getD_some] at hf
        by_cases hbe : b.isEmpty = true
        · obtain ⟨q', hq⟩ := flushClose_unl_ok t retain q (some b) oc of
          refine ⟨q', (if oc = true then none else some b), of, ?_, ?_⟩
          · simp only [splitLoop]
            rw [if_pos hbe, hq]
          · intro hc; simp [hc]
        · rcases hfind : findSeparator ⟨.universalNewline t, retain⟩ oc b
            with _ | ⟨st, en⟩
          · obtain ⟨q', hq⟩ := flushClose_unl_ok t retain q (some b) oc of
            refine ⟨q', (if oc = true then none else some b), of, ?_, ?_⟩
            · simp only [splitLoop]
              rw [if_neg hbe, hfind, hq]
            · intro hc; simp [hc]
          · obtain ⟨hlt, hle⟩ := findSeparator_bounds (by rfl) hfind
            have hfuel : ((some (b.drop en)).getD [] : Str).length < n := by
              simp only [Option.getD_some, List.length_drop]
              omega
            by_cases hr : retain = true
            · subst hr
              obtain ⟨q', ob', of', hq, hcb⟩ := ih
                (q ++ [b.take st ++
                  (if t then ['\n'] else (b.drop st).take (en - st))])
                (some (b.drop en)) oc false hfuel
              refine ⟨q', ob', of', ?_, hcb⟩
              by_cases ht : t = true
              · subst ht
                simp only [splitLoop]
                rw [if_neg hbe, hfind]
                simp only [handleSegment, handleSeparator]
                simpa using hq
              · have htf : t = false := by
                  rcases t with _ | _
                  · rfl
                  · exact absurd rfl ht
                subst htf
                simp only [splitLoop]
                rw [if_neg hbe, hfind]
                simp only [handleSegment, handleSeparator]
                simpa using hq
            · have hrf : retain = false := by
                rcases retain with _ | _
                · rfl
                · exact absurd rfl hr
              subst hrf
              obtain ⟨q', ob', of', hq, hcb⟩ := ih (q ++ [b.take st])
                (some (b.drop en)) oc false hfuel
              refine ⟨q', ob', of', ?_, hcb⟩
              simp only [splitLoop]
              rw [if_neg hbe, hfind]
              simp only [handleSegment, handleSeparator]
              simpa using hq

/-- C6: a `TerminatedSplitter` on the delimiter `"\n"`, fed a whole input
and then closed, emits without retention every delimiter-terminated field,
suppressing a final empty segment and keeping a final non-empty
unterminated one; with retention each field carries its terminator as a
suffix. -/
theorem terminated_scenarios :
    itemsOf (runChunks ⟨.terminated (strL "\n"), false⟩ [strL ""]) =
        some [] ∧
    itemsOf (runChunks ⟨.terminated (strL "\n"), false⟩ [strL "\n"]) =
        some [strL ""] ∧
    itemsOf (runChunks ⟨.terminated (strL "\n"), false⟩ [strL "foo\n"]) =
        some [strL "foo"] ∧
    itemsOf (runChunks ⟨.terminated (strL "\n"), false⟩ [strL "foo\nbar"]) =
        some [strL "foo", strL "bar"] ∧
    itemsOf (runChunks ⟨.terminated (strL "\n"), false⟩ [strL "a\nb\n"]) =
        some [strL "a", strL "b"] ∧
    itemsOf (runChunks ⟨.terminated (strL "\n"), true⟩ [strL "a\nb\n"]) =
        some [strL "a\n", strL "b\n"] := by
  decide

/-- C8: `feed` raises `SplitterClosedError` exactly when the splitter has
been closed (and the flag not since cleared by `reset` or `setstate`), the
raise happens before any mutation so the carried state is the state the
splitter had before the call, and an unclosed splitter's `feed` never
raises this error. -/
theorem feed_closed_error (cfg : Cfg) (data : Str) (s : St) :
    (s.closed = true → feed cfg data s = .closedError s) ∧
    (s.closed = false → ∀ t, feed cfg data s ≠ .closedError t) := by
  constructor
  · intro h
    unfold feed
    rw [h]
    rfl
  · intro h t
    unfold feed
    rw [h]
    simp only [Bool.false_eq_true, if_false]
    exact splitLoop_ne_closedError cfg _ _ t

/-! Buffer and closed-flag bookkeeping of the scan loop. -/

lemma flushClose_not_closed {cfg : Cfg} {s : St} (hc : s.closed = false) :
    flushClose cfg s = .ok s := by
  unfold flushClose
  rw [hc]
  rfl

lemma splitLoop_not_closed_some (cfg : Cfg) :
    ∀ (fuel : Nat) (s s' : St), s.closed = false →
      splitLoop cfg fuel s = .ok s' →
      s'.closed = false ∧ (∀ b, s.buff = some b → ∃ r, s'.buff = some r) := by
  intro fuel
  induction fuel with
  | zero => intro s s' hc h; cases h
  | succ n ih =>
      intro s s' hc h
      simp only [splitLoop] at h
      split at h
      next hbuff =>
        rw [flushClose_not_closed hc] at h
        cases h
        exact ⟨hc, fun b hb => by rw [hbuff] at hb; cases hb⟩
      next b hbuff =>
        split at h
        · rw [flushClose_not_closed hc] at h
          cases h
          exact ⟨hc, fun b' _ => ⟨b, hbuff⟩⟩
        · split at h
          · rw [flushClose_not_closed hc] at h
            cases h
            exact ⟨hc, fun b' _ => ⟨b, hbuff⟩⟩
          · split at h
            · cases h
            · split at h
              · cases h
              · have hres := ih _ s' (by exact hc) h
                exact ⟨hres.1, fun b' _ => hres.2 _ rfl⟩

lemma close_buff_none {cfg : Cfg} {s : St} (h : s.buff = none) :
    close cfg s = .ok { s with closed := true } := by
  unfold close
  simp only [h]

lemma close_separated_flush (sep b : Str) (r : Bool) (s : St)
    (hb : s.buff = some b)
    (hfind : findSeparator ⟨.separated sep, r⟩ true b = none) :
    close ⟨.separated sep, r⟩ s =
      .ok ⟨s.items ++ [b], none, s.hold, true, s.first⟩ := by
  unfold close
  simp only [hb]
  simp only [splitLoop, hb]
  have hflush :
      flushClose ⟨.separated sep, r⟩ { s with closed := true, buff := some b } =
        .ok ⟨s.items ++ [b], none, s.hold, true, s.first⟩ := by
    unfold flushClose
    simp only [handleSegment, output]
    rfl
  by_cases hbe : b.isEmpty
  · rw [if_pos hbe]
    exact hflush
  · rw [if_neg hbe, hfind]
    exact hflush

/-- C7: closing flushes exactly when buffer content is present, where
empty-string content differs from no content: closing a splitter whose
buffer is absent (never fed since construction or reset) performs no flush
at all, any feed leaves the buffer present so a later close hands the
remaining buffer (possibly empty) to the segment handler as the last
segment — for a `SeparatedSplitter` that appends it as one item — and
consequently a never-fed separated splitter ends with no items while
feeding `""` then ending yields one empty item. -/
theorem end_flush_iff_content (cfg : Cfg) (s s' : St) (data b sep : Str)
    (r : Bool) :
    (s.buff = none → close cfg s = .ok { s with closed := true }) ∧
    (s.closed = false → feed cfg data s = .ok s' → ∃ rb, s'.buff = some rb) ∧
    (s.buff = some b → findSeparator ⟨.separated sep, r⟩ true b = none →
      close ⟨.separated sep, r⟩ s =
        .ok ⟨s.items ++ [b], none, s.hold, true, s.first⟩) ∧
    itemsOf (runChunks ⟨.separated (strL "\n"), false⟩ []) = some [] ∧
    itemsOf (runChunks ⟨.separated (strL "\n"), false⟩ [strL ""]) =
      some [strL ""] := by
  refine ⟨fun h => close_buff_none h, ?_, ?_, by decide, by decide⟩
  · intro hc hfeed
    unfold feed at hfeed
    rw [hc] at hfeed
    simp only [Bool.false_eq_true, if_false] at hfeed
    have := splitLoop_not_closed_some cfg _ _ s' (by rfl) hfeed
    exact this.2 _ rfl
  · intro hb hfind
    exact close_separated_flush sep b r s hb hfind

/-- Closed corollary of `end_flush_iff_content` at concrete inputs,
discharging its hypotheses on a fresh splitter, a concrete feed and a
concrete buffered state. -/
theorem end_flush_iff_content_witness :
    close ⟨.terminated (strL "\n"), false⟩ initSt =
        .ok { initSt with closed := true } ∧
    (∃ rb, (⟨[], some (strL "ab"), none, false, true⟩ : St).buff = some rb) ∧
    close ⟨.separated (strL "\n"), false⟩
        ⟨[], some (strL "ab"), none, false, true⟩ =
      .ok ⟨[strL "ab"], none, none, true, true⟩ :=
  ⟨(end_flush_iff_content ⟨.terminated (strL "\n"), false⟩ initSt initSt
      [] [] [] false).1 rfl,
   (end_flush_iff_content ⟨.separated (strL "\n"), false⟩ initSt
      ⟨[], some (strL "ab"), none, false, true⟩ (strL "ab") [] [] false).2.1
      rfl (by decide),
   (end_flush_iff_content ⟨.separated (strL "\n"), false⟩
      ⟨[], some (strL "ab"), none, false, true⟩ initSt [] (strL "ab")
      (strL "\n") false).2.2.1 rfl (by decide)⟩

/-! Universal-newline CR withholding at the end of the buffer. -/

lemma nlSearch_snoc_cr {x : Str} (h : nlSearch x = none) :
    nlSearch (x ++ ['\r']) = some (x.length, x.length + 1, ['\r']) := by
  rw [nlSearch_none_append h]
  simp [nlSearch, Nat.add_comm]

lemma findSeparator_cr_closed (t r : Bool) {x : Str} (h : nlSearch x = none) :
    findSeparator ⟨.universalNewline t, r⟩ true (x ++ ['\r']) =
      some (x.length, x.length + 1) := by
  unfold findSeparator
  rw [nlSearch_snoc_cr h]
  exact if_neg (by simp)

lemma feed_buff_none (cfg : Cfg) (data : Str) (q : List Str) (h : Option Str)
    (f : Bool) :
    feed cfg data ⟨q, none, h, false, f⟩ =
      splitLoop cfg (data.length + 1) ⟨q, some data, h, false, f⟩ := rfl

lemma close_buff_some (cfg : Cfg) (b : Str) (q : List Str) (h : Option Str)
    (c f : Bool) :
    close cfg ⟨q, some b, h, c, f⟩ =
      splitLoop cfg (b.length + 1) ⟨q, some b, h, true, f⟩ := rfl

lemma close_resolves_cr {x : Str} (h : nlSearch x = none) :
    close ⟨.universalNewline true, true⟩
        ⟨[], some (x ++ ['\r']), none, false, true⟩ =
      .ok ⟨[x ++ ['\n']], none, none, true, false⟩ := by
  rw [close_buff_some]
  have hlen : (x ++ ['\r']).length = x.length + 1 := by simp
  rw [hlen]
  have hdrop : (x ++ ['\r']).drop (x.length + 1) = [] :=
    List.drop_eq_nil_of_le (by simp)
  have hsub : x.length + 1 - x.length = 1 := by omega
  simp [splitLoop, findSeparator_cr_closed true true h, List.take_left,
    List.drop_left, hdrop, hsub, handleSegment, handleSeparator, flushClose,
    output]

/-- C2: in an unclosed `UniversalNewlineSplitter`, a match that is a bare
CR sitting exactly at the end of the buffered data is treated as no match
(the feed emits nothing and the CR stays buffered), and a subsequent close
resolves the withheld trailing CR as a lone-CR separator match instead of
dropping it; in particular with `retain` and `translate` set, feeding
`"foo" + CR` produces no item, then feeding `LF + "bar"` produces the
single item `"foo" + LF`, and closing flushes `"bar"`. -/
theorem univ_newline_cr_withholding :
    (∀ (t r : Bool) (data : Str) (st en : Nat),
        nlSearch data = some (st, en, ['\r']) → en = data.length →
        findSeparator ⟨.universalNewline t, r⟩ false data = none) ∧
    (∀ (t r : Bool) (x : Str), nlSearch x = none →
        feed ⟨.universalNewline t, r⟩ (x ++ ['\r']) initSt =
          .ok ⟨[], some (x ++ ['\r']), none, false, true⟩) ∧
    (∀ x : Str, nlSearch x = none →
        close ⟨.universalNewline true, true⟩
            ⟨[], some (x ++ ['\r']), none, false, true⟩ =
          .ok ⟨[x ++ ['\n']], none, none, true, false⟩) ∧
    feed ⟨.universalNewline true, true⟩ (strL "foo\r") initSt =
      .ok ⟨[], some (strL "foo\r"), none, false, true⟩ ∧
    bindRes (feed ⟨.universalNewline true, true⟩ (strL "foo\r") initSt)
        (feed ⟨.universalNewline true, true⟩ (strL "\nbar")) =
      .ok ⟨[strL "foo\n"], some (strL "bar"), none, false, false⟩ ∧
    itemsOf (runChunks ⟨.universalNewline true, true⟩
        [strL "foo\r", strL "\nbar"]) =
      some [strL "foo\n", strL "bar"] := by
  refine ⟨?_, ?_, fun x h => close_resolves_cr h, by decide, by decide,
    by decide⟩
  · intro t r data st en hnl hen
    unfold findSeparator
    rw [hnl]
    exact if_pos ⟨rfl, hen, rfl⟩
  · intro t r x h
    rw [show (initSt : St) = ⟨[], none, none, false, true⟩ from rfl,
      feed_buff_none]
    have hlen : (x ++ ['\r']).length = x.length + 1 := by simp
    rw [hlen]
    simp only [splitLoop]
    rw [if_neg (by simp)]
    have hfind :
        findSeparator ⟨.universalNewline t, r⟩ false (x ++ ['\r']) = none := by
      unfold findSeparator
      rw [nlSearch_snoc_cr h]
      exact if_pos ⟨rfl, by simp, rfl⟩
    rw [hfind]
    rfl

/-- Closed corollary of `univ_newline_cr_withholding` at concrete inputs,
discharging its hypotheses at `x = "foo"` and `data = "foo" + CR`. -/
theorem univ_newline_cr_withholding_witness :
    feed ⟨.universalNewline true, true⟩ (strL "foo" ++ ['\r']) initSt =
        .ok ⟨[], some (strL "foo" ++ ['\r']), none, false, true⟩ ∧
    close ⟨.universalNewline true, true⟩
        ⟨[], some (strL "foo" ++ ['\r']), none, false, true⟩ =
      .ok ⟨[strL "foo" ++ ['\n']], none, none, true, false⟩ ∧
    findSeparator ⟨.universalNewline true, false⟩ false (strL "ab\r") =
      none :=
  ⟨univ_newline_cr_withholding.2.1 true true (strL "foo") (by decide),
   univ_newline_cr_withholding.2.2.1 (strL "foo") (by decide),
   univ_newline_cr_withholding.1 true false (strL "ab\r") 2 3 (by decide)
     (by decide)⟩

/-- Closed corollary of `feed_closed_error` at a concrete closed splitter
state, discharging its hypothesis there. -/
theorem feed_closed_error_witness :
    feed ⟨.separated (strL "\n"), false⟩ (strL "x")
        ⟨[], none, none, true, true⟩ =
      .closedError ⟨[], none, none, true, true⟩ :=
  (feed_closed_error ⟨.separated (strL "\n"), false⟩ (strL "x")
    ⟨[], none, none, true, true⟩).1 rfl

/-- C4: `capture_state` followed immediately by `restore_state` is a no-op;
capturing, then feeding further, then restoring reverts the splitter to
exactly the captured values; and replaying any feed sequence from the
restored state reproduces exactly the results observed the first time. -/
theorem snapshot_restore_exact (cfg : Cfg) (s t : St) (fs : List Str) :
    setstate (getstate s) s = s ∧
    setstate (getstate s) t = s ∧
    runFeeds cfg fs (setstate (getstate s) t) = runFeeds cfg fs s := by
  have h : setstate (getstate s) t = s := by cases s; rfl
  have h₀ : setstate (getstate s) s = s := by cases s; rfl
  exact ⟨h₀, h, by rw [h]⟩

/-! Round-trip property of the separated variant with retention. -/

lemma flushClose_separated (sep : Str) (r : Bool) (q : List Str)
    (ob oh : Option Str) (oc of : Bool) :
    ∃ s', flushClose ⟨.separated sep, r⟩ ⟨q, ob, oh, oc, of⟩ = .ok s' ∧
      s'.items.flatten ++ s'.buff.getD [] = q.flatten ++ ob.getD [] ∧
      s'.closed = oc ∧
      (oc = true → s'.buff = none) ∧
      s'.hold = oh := by
  unfold flushClose
  by_cases hc : oc = true
  · subst hc
    simp only [if_pos]
    rcases ob with _ | b
    · exact ⟨⟨q, none, oh, true, of⟩, rfl, rfl, rfl, fun _ => rfl, rfl⟩
    · refine ⟨⟨output q b, none, oh, true, of⟩, rfl, ?_, rfl,
        fun _ => rfl, rfl⟩
      simp [output]
  · rw [if_neg (by simpa using hc)]
    exact ⟨⟨q, ob, oh, oc, of⟩, rfl, rfl, rfl, fun h => absurd h hc, rfl⟩

lemma splitLoop_sep_retain_concat (sep : Str) (hsep : sep ≠ []) :
    ∀ (fuel : Nat) (q : List Str) (ob oh : Option Str) (oc of : Bool),
      (ob.getD []).length < fuel →
      ∃ s', splitLoop ⟨.separated sep, true⟩ fuel ⟨q, ob, oh, oc, of⟩ =
          .ok s' ∧
        s'.items.flatten ++ s'.buff.getD [] = q.flatten ++ ob.getD [] ∧
        s'.closed = oc ∧
        (oc = true → s'.buff = none) ∧
        s'.hold = oh := by
  have hv : validCfg ⟨.separated sep, true⟩ = true := by
    simp [validCfg, List.isEmpty_iff, hsep]
  intro fuel
  induction fuel with
  | zero => intro q ob oh oc of hf; omega
  | succ n ih =>
      intro q ob oh oc of hf
      rcases ob with _ | b
      · simp only [splitLoop]
        exact flushClose_separated sep true q none oh oc of
      · simp only [Option.getD_some] at hf
        simp only [splitLoop]
        by_cases hbe : b.isEmpty = true
        · rw [if_pos hbe]
          exact flushClose_separated sep true q (some b) oh oc of
        · rw [if_neg hbe]
          rcases hfind : findSeparator ⟨.separated sep, true⟩ oc b
            with _ | ⟨st, en⟩
          · exact flushClose_separated sep true q (some b) oh oc of
          · obtain ⟨hlt, hle⟩ := findSeparator_bounds hv hfind
            simp only [handleSegment, handleSeparator, if_pos]
            have hfuel : ((some (b.drop en)).getD [] : Str).length < n := by
              simp only [Option.getD_some, List.length_drop]
              omega
            obtain ⟨s', h1, h2, h3, h4, h5⟩ :=
              ih (output (output q (b.take st)) ((b.drop st).take (en - st)))
                (some (b.drop en)) oh oc false hfuel
            refine ⟨s', h1, ?_, h3, h4, h5⟩
            rw [h2]
            have key : b.take st ++ ((b.drop st).take (en - st) ++ b.drop en)
                = b := by
              rw [← List.append_assoc, ← List.take_add,
                show st + (en - st) = en from by omega]
              exact List.take_append_drop en b
            simp only [output, Option.getD_some, List.flatten_append,
              List.flatten_cons, List.flatten_nil, List.append_nil,
              List.append_assoc]
            rw [key]

/-! Characterization of the scan loop on constant separators in terms of
the token decomposition `tokens`. -/

lemma tokens_nil (sep : Str) (n : Nat) : tokens sep (n + 1) [] = ([], []) :=
  rfl

lemma tokens_no_match {sep X : Str} (n : Nat) (hi : strIndex sep X = none) :
    tokens sep (n + 1) X = ([], X) := by
  by_cases hX : X.isEmpty = true
  · simp [tokens, hX]
  · simp [tokens, hX, hi]

lemma tokens_step {sep X : Str} (n : Nat) {i : Nat} (hX : ¬ X.isEmpty = true)
    (hi : strIndex sep X = some i) :
    tokens sep (n + 1) X =
      ((X.take i) :: (tokens sep n (X.drop (i + sep.length))).1,
        (tokens sep n (X.drop (i + sep.length))).2) := by
  simp [tokens, hX, hi]

lemma tokens_residual {sep : Str} (hsep : sep ≠ []) :
    ∀ (fuel : Nat) (X : Str), X.length < fuel →
      strIndex sep (tokens sep fuel X).2 = none := by
  intro fuel
  induction fuel with
  | zero => intro X hf; omega
  | succ n ih =>
      intro X hf
      by_cases hX : X.isEmpty = true
      · have hXe : X = [] := List.isEmpty_iff.1 hX
        subst hXe
        rw [tokens_nil]
        simp [strIndex, hsep]
      · rcases hi : strIndex sep X with _ | i
        · rw [tokens_no_match n hi]
          exact hi
        · rw [tokens_step n hX hi]
          have hlen := strIndex_add_length_le hi
          have hlen2 : 0 < sep.length := List.length_pos.2 hsep
          refine ih _ ?_
          simp only [List.length_drop]
          omega

lemma splitLoop_term_char (sep : Str) (retain : Bool) (hsep : sep ≠ []) :
    ∀ (fuel : Nat) (X : Str) (q : List Str) (of : Bool),
      X.length < fuel →
      splitLoop ⟨.terminated sep, retain⟩ fuel ⟨q, some X, none, false, of⟩ =
        .ok ⟨q ++ termOut retain sep (tokens sep fuel X).1,
             some (tokens sep fuel X).2, none, false,
             of && (tokens sep fuel X).1.isEmpty⟩ := by
  intro fuel
  induction fuel with
  | zero => intro X q of hf; omega
  | succ n ih =>
      intro X q of hf
      by_cases hX : X.isEmpty = true
      · have hXe : X = [] := List.isEmpty_iff.1 hX
        subst hXe
        rw [tokens_nil]
        simp [splitLoop, flushClose, termOut]
      · rcases hi : strIndex sep X with _ | i
        · rw [tokens_no_match n hi]
          have hfind :
              findSeparator ⟨.terminated sep, retain⟩ false X = none := by
            simp [findSeparator, hi]
          simp [splitLoop, hX, hfind, flushClose, termOut]
        · rw [tokens_step n hX hi]
          have hfind : findSeparator ⟨.terminated sep, retain⟩ false X =
              some (i, i + sep.length) := by
            simp [findSeparator, hi]
          have hsept2 : (X.drop i).take sep.length = sep :=
            isPrefixOf_take (strIndex_isPrefixOf hi)
          have hlen := strIndex_add_length_le hi
          have hlen2 : 0 < sep.length := List.length_pos.2 hsep
          have hXne : X ≠ [] := by
            intro hc; subst hc; simp at hX
          have hfuel : (X.drop (i + sep.length)).length < n := by
            simp only [List.length_drop]
            have : 0 < X.length := List.length_pos.2 hXne
            omega
          by_cases hr : retain = true
          · subst hr
            have hstep := ih (X.drop (i + sep.length))
              (q ++ [X.take i ++ sep]) false hfuel
            simp [splitLoop, hXne, hfind, handleSegment, handleSeparator,
              hsept2, output, hstep, termOut, List.append_assoc]
          · have hrf : retain = false := by
              rcases retain with _ | _
              · rfl
              · exact absurd rfl hr
            subst hrf
            have hstep := ih (X.drop (i + sep.length))
              (q ++ [X.take i]) false hfuel
            simp [splitLoop, hXne, hfind, handleSegment, handleSeparator,
              hsept2, output, hstep, termOut, List.append_assoc]

lemma splitLoop_sep_char (sep : Str) (retain : Bool) (hsep : sep ≠ []) :
    ∀ (fuel : Nat) (X : Str) (q : List Str) (oh : Option Str) (of : Bool),
      X.length < fuel →
      splitLoop ⟨.separated sep, retain⟩ fuel ⟨q, some X, oh, false, of⟩ =
        .ok ⟨q ++ sepOut retain sep (tokens sep fuel X).1,
             some (tokens sep fuel X).2, oh, false,
             of && (tokens sep fuel X).1.isEmpty⟩ := by
  intro fuel
  induction fuel with
  | zero => intro X q oh of hf; omega
  | succ n ih =>
      intro X q oh of hf
      by_cases hX : X.isEmpty = true
      · have hXe : X = [] := List.isEmpty_iff.1 hX
        subst hXe
        rw [tokens_nil]
        simp [splitLoop, flushClose, sepOut]
      · rcases hi : strIndex sep X with _ | i
        · rw [tokens_no_match n hi]
          have hfind :
              findSeparator ⟨.separated sep, retain⟩ false X = none := by
            simp [findSeparator, hi]
          simp [splitLoop, hX, hfind, flushClose, sepOut]
        · rw [tokens_step n hX hi]
          have hfind : findSeparator ⟨.separated sep, retain⟩ false X =
              some (i, i + sep.length) := by
            simp [findSeparator, hi]
          have hsept2 : (X.drop i).take sep.length = sep :=
            isPrefixOf_take (strIndex_isPrefixOf hi)
          have hlen := strIndex_add_length_le hi
          have hlen2 : 0 < sep.length := List.length_pos.2 hsep
          have hXne : X ≠ [] := by
            intro hc; subst hc; simp at hX
          have hfuel : (X.drop (i + sep.length)).length < n := by
            simp only [List.length_drop]
            have : 0 < X.length := List.length_pos.2 hXne
            omega
          by_cases hr : retain = true
          · subst hr
            have hstep := ih (X.drop (i + sep.length))
              (q ++ [X.take i, sep]) oh false hfuel
            simp [splitLoop, hXne, hfind, handleSegment, handleSeparator,
              hsept2, output, hstep, sepOut, List.append_assoc]
          · have hrf : retain = false := by
              rcases retain with _ | _
              · rfl
              · exact absurd rfl hr
            subst hrf
            have hstep := ih (X.drop (i + sep.length))
              (q ++ [X.take i]) oh false hfuel
            simp [splitLoop, hXne, hfind, handleSegment, handleSeparator,
              hsept2, output, hstep, sepOut, List.append_assoc]

lemma precOut_hold_irrel (sep : Str) (f : Bool) (h₁ h₂ : Option Str) :
    ∀ toks, precOut sep false f h₁ toks = precOut sep false f h₂ toks := by
  intro toks
  cases toks with
  | nil => rfl
  | cons a rest => simp [precOut]

lemma splitLoop_prec_char (sep : Str) (retain : Bool) (hsep : sep ≠ []) :
    ∀ (fuel : Nat) (X : Str) (q : List Str) (oh : Option Str) (of : Bool),
      X.length < fuel →
      (retain = true → (oh = none ↔ of = true)) →
      splitLoop ⟨.preceded sep, retain⟩ fuel ⟨q, some X, oh, false, of⟩ =
        .ok ⟨q ++ precOut sep retain of oh (tokens sep fuel X).1,
             some (tokens sep fuel X).2,
             (if (tokens sep fuel X).1.isEmpty then oh
              else if retain then some sep else oh), false,
             of && (tokens sep fuel X).1.isEmpty⟩ := by
  intro fuel
  induction fuel with
  | zero => intro X q oh of hf hpre; omega
  | succ n ih =>
      intro X q oh of hf hpre
      by_cases hX : X.isEmpty = true
      · have hXe : X = [] := List.isEmpty_iff.1 hX
        subst hXe
        rw [tokens_nil]
        simp [splitLoop, flushClose, precOut]
      · rcases hi : strIndex sep X with _ | i
        · rw [tokens_no_match n hi]
          have hfind :
              findSeparator ⟨.preceded sep, retain⟩ false X = none := by
            simp [findSeparator, hi]
          simp [splitLoop, hX, hfind, flushClose, precOut]
        · rw [tokens_step n hX hi]
          have hfind : findSeparator ⟨.preceded sep, retain⟩ false X =
              some (i, i + sep.length) := by
            simp [findSeparator, hi]
          have hsept2 : (X.drop i).take sep.length = sep :=
            isPrefixOf_take (strIndex_isPrefixOf hi)
          have hlen := strIndex_add_length_le hi
          have hlen2 : 0 < sep.length := List.length_pos.2 hsep
          have hXne : X ≠ [] := by
            intro hc; subst hc; simp at hX
          have hfuel : (X.drop (i + sep.length)).length < n := by
            simp only [List.length_drop]
            have : 0 < X.length := List.length_pos.2 hXne
            omega
          by_cases hr : retain = true
          · subst hr
            by_cases hof : of = true
            · subst hof
              have hohn : oh = none := (hpre rfl).mpr rfl
              subst hohn
              by_cases hti : (X.take i).isEmpty = true
              · have hstep := ih (X.drop (i + sep.length)) q (some sep) false
                  hfuel (by simp)
                simp [splitLoop, hXne, hfind, handleSegment, handleSeparator,
                  hsept2, output, hstep, precOut, hti, List.append_assoc]
              · have hstep := ih (X.drop (i + sep.length)) (q ++ [X.take i])
                  (some sep) false hfuel (by simp)
                simp [splitLoop, hXne, hfind, handleSegment, handleSeparator,
                  hsept2, output, hstep, precOut, hti, List.append_assoc]
            · have hoff : of = false := by
                rcases of with _ | _
                · rfl
                · exact absurd rfl hof
              subst hoff
              rcases oh with _ | hh
              · exact absurd ((hpre rfl).mp rfl) (by simp)
              · have hstep := ih (X.drop (i + sep.length))
                  (q ++ [hh ++ X.take i]) (some sep) false hfuel (by simp)
                simp [splitLoop, hXne, hfind, handleSegment, handleSeparator,
                  hsept2, output, hstep, precOut, List.append_assoc]
          · have hrf : retain = false := by
              rcases retain with _ | _
              · rfl
              · exact absurd rfl hr
            subst hrf
            by_cases hof : of = true
            · subst hof
              by_cases hti : (X.take i).isEmpty = true
              · have hstep := ih (X.drop (i + sep.length)) q oh false hfuel
                  (by simp)
                simp [splitLoop, hXne, hfind, handleSegment, handleSeparator,
                  hsept2, output, hstep, precOut, hti, List.append_assoc,
                  precOut_hold_irrel sep false oh (some sep)]
              · have hstep := ih (X.drop (i + sep.length)) (q ++ [X.take i])
                  oh false hfuel (by simp)
                simp [splitLoop, hXne, hfind, handleSegment, handleSeparator,
                  hsept2, output, hstep, precOut, hti, List.append_assoc,
                  precOut_hold_irrel sep false oh (some sep)]
            · have hoff : of = false := by
                rcases of with _ | _
                · rfl
                · exact absurd rfl hof
              subst hoff
              have hstep := ih (X.drop (i + sep.length)) (q ++ [X.take i])
                oh false hfuel (by simp)
              simp [splitLoop, hXne, hfind, handleSegment, handleSeparator,
                hsept2, output, hstep, precOut, List.append_assoc,
                precOut_hold_irrel sep false oh (some sep)]

/-! One-shot functions against the engine composition. -/

lemma splitLoop_closed_no_match (cfg : Cfg) (n : Nat) (q : List Str)
    (b : Str) (oh : Option Str) (of : Bool)
    (hfind : findSeparator cfg true b = none) :
    splitLoop cfg (n + 1) ⟨q, some b, oh, true, of⟩ =
      flushClose cfg ⟨q, some b, oh, true, of⟩ := by
  by_cases hb : b.isEmpty = true
  · simp [splitLoop, hb]
  · simp [splitLoop, hb, hfind]

lemma sepOut_false (sep : Str) : ∀ toks, sepOut false sep toks = toks := by
  intro toks
  induction toks with
  | nil => rfl
  | cons a rest ih => simp [sepOut, ih]

lemma jp_sepOut (sep r : Str) :
    ∀ toks, joinPairs (sepOut true sep toks ++ [r]) =
      toks.map (· ++ sep) ++ [r] := by
  intro toks
  induction toks with
  | nil => rfl
  | cons a rest ih => simp [sepOut, joinPairs, ih]

lemma jp_shift (sep r : Str) :
    ∀ toks, joinPairs (sep :: (sepOut true sep toks ++ [r])) =
      toks.map (sep ++ ·) ++ [sep ++ r] := by
  intro toks
  induction toks with
  | nil => rfl
  | cons a rest ih => simp [sepOut, joinPairs, ih]

lemma precOut_map (sep : Str) :
    ∀ toks, precOut sep true false (some sep) toks =
      toks.map (sep ++ ·) := by
  intro toks
  induction toks with
  | nil => rfl
  | cons a rest ih => simp [precOut, ih]

lemma precOut_id (sep : Str) (h : Option Str) :
    ∀ toks, precOut sep false false h toks = toks := by
  intro toks
  induction toks with
  | nil => rfl
  | cons a rest ih =>
      simp [precOut]
      rw [precOut_hold_irrel sep false (some sep) h]
      exact ih

lemma splitSeparatedFuel_tokens (sep : Str) (retain : Bool)
    (hsep : sep ≠ []) :
    ∀ (fuel : Nat) (s : Str), splitSeparatedFuel sep retain fuel s =
      sepOut retain sep (tokens sep fuel s).1 ++ [(tokens sep fuel s).2] := by
  intro fuel
  induction fuel with
  | zero => intro s; simp [splitSeparatedFuel, tokens, sepOut]
  | succ n ih =>
      intro s
      by_cases hs : s.isEmpty = true
      · have hse : s = [] := List.isEmpty_iff.1 hs
        subst hse
        have hnone : strIndex sep [] = none := by simp [strIndex, hsep]
        rw [tokens_nil]
        simp [splitSeparatedFuel, hnone, sepOut]
      · rcases hi : strIndex sep s with _ | i
        · rw [tokens_no_match n hi]
          simp [splitSeparatedFuel, hi, sepOut]
        · rw [tokens_step n hs hi]
          have hsept2 : (s.drop i).take sep.length = sep :=
            isPrefixOf_take (strIndex_isPrefixOf hi)
          simp [splitSeparatedFuel, hi, sepOut, hsept2, ih,
            List.append_assoc]

lemma split_separated_char (sep s : Str) (retain : Bool) (hsep : sep ≠ []) :
    split_separated s sep retain =
      sepOut retain sep (tokens sep (s.length + 1) s).1 ++
        [(tokens sep (s.length + 1) s).2] := by
  unfold split_separated
  exact splitSeparatedFuel_tokens sep retain hsep (s.length + 1) s

lemma split_terminated_char (sep s : Str) (retain : Bool) (hsep : sep ≠ []) :
    split_terminated s sep retain =
      termOut retain sep (tokens sep (s.length + 1) s).1 ++
        (if (tokens sep (s.length + 1) s).2.isEmpty then []
         else [(tokens sep (s.length + 1) s).2]) := by
  unfold split_terminated
  rw [split_separated_char sep s retain hsep]
  rcases htk : tokens sep (s.length + 1) s with ⟨toks, r⟩
  simp only
  by_cases hr : retain = true
  · subst hr
    rw [jp_sepOut sep r toks]
    by_cases hre : r.isEmpty = true
    · have hree : r = [] := List.isEmpty_iff.1 hre
      subst hree
      simp [List.getLast?_concat, List.dropLast_concat, termOut]
    · have hrne : r ≠ [] := by
        intro hc; subst hc; simp at hre
      simp [List.getLast?_concat, hrne, termOut, hre]
  · have hrf : retain = false := by
      rcases retain with _ | _
      · rfl
      · exact absurd rfl hr
    subst hrf
    rw [sepOut_false sep toks]
    by_cases hre : r.isEmpty = true
    · have hree : r = [] := List.isEmpty_iff.1 hre
      subst hree
      simp [List.getLast?_concat, List.dropLast_concat, termOut]
    · have hrne : r ≠ [] := by
        intro hc; subst hc; simp at hre
      simp [List.getLast?_concat, hrne, termOut, hre]

lemma split_preceded_char (sep s : Str) (retain : Bool) (hsep : sep ≠ []) :
    split_preceded s sep retain =
      precOut sep retain true none (tokens sep (s.length + 1) s).1 ++
        (if (tokens sep (s.length + 1) s).1.isEmpty then
          (if (tokens sep (s.length + 1) s).2.isEmpty then []
           else [(tokens sep (s.length + 1) s).2])
         else [if retain then sep ++ (tokens sep (s.length + 1) s).2
               else (tokens sep (s.length + 1) s).2]) := by
  unfold split_preceded
  rw [split_separated_char sep s retain hsep]
  rcases htk : tokens sep (s.length + 1) s with ⟨toks, r⟩
  simp only
  rcases toks with _ | ⟨a, toks'⟩
  · by_cases hre : r.isEmpty = true
    · have hree : r = [] := List.isEmpty_iff.1 hre
      subst hree
      rcases retain with _ | _ <;> simp [sepOut, joinPairs, precOut]
    · rcases retain with _ | _ <;> simp [sepOut, joinPairs, precOut, hre]
  · by_cases hr : retain = true
    · subst hr
      have hjp := jp_shift sep r toks'
      by_cases hae : a.isEmpty = true
      · simp [sepOut, joinPairs, precOut, hae, hjp, precOut_map,
          List.append_assoc]
      · simp [sepOut, joinPairs, precOut, hae, hjp, precOut_map,
          List.append_assoc]
    · have hrf : retain = false := by
        rcases retain with _ | _
        · rfl
        · exact absurd rfl hr
      subst hrf
      by_cases hae : a.isEmpty = true
      · simp [sepOut_false, precOut, hae, precOut_id, List.append_assoc]
      · simp [sepOut_false, precOut, hae, precOut_id, List.append_assoc]

lemma oneShot_term_char (sep s : Str) (retain : Bool) (hsep : sep ≠ []) :
    itemsOf (runChunks ⟨.terminated sep, retain⟩ [s]) =
      some (termOut retain sep (tokens sep (s.length + 1) s).1 ++
        (if (tokens sep (s.length + 1) s).2.isEmpty then []
         else [(tokens sep (s.length + 1) s).2])) := by
  have hfeed := splitLoop_term_char sep retain hsep (s.length + 1) s []
    true (by omega)
  have hres := tokens_residual hsep (s.length + 1) s (by omega)
  have hfind : findSeparator ⟨.terminated sep, retain⟩ true
      (tokens sep (s.length + 1) s).2 = none := by
    simp [findSeparator, hres]
  unfold runChunks
  have h1 : runFeeds ⟨.terminated sep, retain⟩ [s] initSt =
      .ok ⟨[] ++ termOut retain sep (tokens sep (s.length + 1) s).1,
           some (tokens sep (s.length + 1) s).2, none, false,
           true && (tokens sep (s.length + 1) s).1.isEmpty⟩ := by
    simp only [runFeeds]
    rw [show (initSt : St) = ⟨[], none, none, false, true⟩ from rfl,
      feed_buff_none, hfeed]
    rfl
  rw [h1]
  simp only [bindRes]
  rw [close_buff_some,
    splitLoop_closed_no_match _ _ _ _ _ _ hfind]
  by_cases hre : (tokens sep (s.length + 1) s).2.isEmpty = true
  · simp [flushClose, handleSegment, hre, itemsOf]
  · simp [flushClose, handleSegment, hre, itemsOf, output]

lemma oneShot_sep_char (sep s : Str) (retain : Bool) (hsep : sep ≠ []) :
    itemsOf (runChunks ⟨.separated sep, retain⟩ [s]) =
      some (sepOut retain sep (tokens sep (s.length + 1) s).1 ++
        [(tokens sep (s.length + 1) s).2]) := by
  have hfeed := splitLoop_sep_char sep retain hsep (s.length + 1) s []
    none true (by omega)
  have hres := tokens_residual hsep (s.length + 1) s (by omega)
  have hfind : findSeparator ⟨.separated sep, retain⟩ true
      (tokens sep (s.length + 1) s).2 = none := by
    simp [findSeparator, hres]
  unfold runChunks
  have h1 : runFeeds ⟨.separated sep, retain⟩ [s] initSt =
      .ok ⟨[] ++ sepOut retain sep (tokens sep (s.length + 1) s).1,
           some (tokens sep (s.length + 1) s).2, none, false,
           true && (tokens sep (s.length + 1) s).1.isEmpty⟩ := by
    simp only [runFeeds]
    rw [show (initSt : St) = ⟨[], none, none, false, true⟩ from rfl,
      feed_buff_none, hfeed]
    rfl
  rw [h1]
  simp only [bindRes]
  rw [close_buff_some,
    splitLoop_closed_no_match _ _ _ _ _ _ hfind]
  simp [flushClose, handleSegment, itemsOf, output]

lemma oneShot_prec_char (sep s : Str) (retain : Bool) (hsep : sep ≠ []) :
    itemsOf (runChunks ⟨.preceded sep, retain⟩ [s]) =
      some (precOut sep retain true none (tokens sep (s.length + 1) s).1 ++
        (if (tokens sep (s.length + 1) s).1.isEmpty then
          (if (tokens sep (s.length + 1) s).2.isEmpty then []
           else [(tokens sep (s.length + 1) s).2])
         else [if retain then sep ++ (tokens sep (s.length + 1) s).2
               else (tokens sep (s.length + 1) s).2])) := by
  have hfeed := splitLoop_prec_char sep retain hsep (s.length + 1) s []
    none true (by omega) (by simp)
  have hres := tokens_residual hsep (s.length + 1) s (by omega)
  have hfind : findSeparator ⟨.preceded sep, retain⟩ true
      (tokens sep (s.length + 1) s).2 = none := by
    simp [findSeparator, hres]
  unfold runChunks
  have h1 : runFeeds ⟨.preceded sep, retain⟩ [s] initSt =
      .ok ⟨[] ++ precOut sep retain true none (tokens sep (s.length + 1) s).1,
           some (tokens sep (s.length + 1) s).2,
           (if (tokens sep (s.length + 1) s).1.isEmpty then none
            else if retain then some sep else none), false,
           true && (tokens sep (s.length + 1) s).1.isEmpty⟩ := by
    simp only [runFeeds]
    rw [show (initSt : St) = ⟨[], none, none, false, true⟩ from rfl,
      feed_buff_none, hfeed]
    rfl
  rw [h1]
  simp only [bindRes]
  rw [close_buff_some,
    splitLoop_closed_no_match _ _ _ _ _ _ hfind]
  by_cases htk : (tokens sep (s.length + 1) s).1.isEmpty = true
  · by_cases hre : (tokens sep (s.length + 1) s).2.isEmpty = true
    · simp [flushClose, handleSegment, htk, hre, itemsOf]
    · simp [flushClose, handleSegment, htk, hre, itemsOf, output]
  · by_cases hr : retain = true
    · subst hr
      simp [flushClose, handleSegment, htk, itemsOf, output]
    · have hrf : retain = false := by
        rcases retain with _ | _
        · rfl
        · exact absurd rfl hr
      subst hrf
      simp [flushClose, handleSegment, htk, itemsOf, output]

/-- C5: the one-shot helpers `split_terminated`, `split_separated` and
`split_preceded` return, for every input and non-empty literal separator
and retain flag, exactly the items obtained by constructing the matching
splitter variant, feeding the whole input in one call, closing, and
draining every item. -/
theorem one_shot_engine_equiv (sep s : Str) (retain : Bool)
    (hsep : sep ≠ []) :
    itemsOf (runChunks ⟨.terminated sep, retain⟩ [s]) =
        some (split_terminated s sep retain) ∧
    itemsOf (runChunks ⟨.separated sep, retain⟩ [s]) =
        some (split_separated s sep retain) ∧
    itemsOf (runChunks ⟨.preceded sep, retain⟩ [s]) =
        some (split_preceded s sep retain) := by
  refine ⟨?_, ?_, ?_⟩
  · rw [oneShot_term_char sep s retain hsep,
      split_terminated_char sep s retain hsep]
  · rw [oneShot_sep_char sep s retain hsep,
      split_separated_char sep s retain hsep]
  · rw [oneShot_prec_char sep s retain hsep,
      split_preceded_char sep s retain hsep]

/-- Closed corollary of `one_shot_engine_equiv` at a concrete separator,
input and retain flag, discharging its hypothesis there. -/
theorem one_shot_engine_equiv_witness :
    itemsOf (runChunks ⟨.terminated (strL "\n"), true⟩ [strL "a\nb\n"]) =
        some (split_terminated (strL "a\nb\n") (strL "\n") true) ∧
    itemsOf (runChunks ⟨.separated (strL "\n"), true⟩ [strL "a\nb\n"]) =
        some (split_separated (strL "a\nb\n") (strL "\n") true) ∧
    itemsOf (runChunks ⟨.preceded (strL "\n"), true⟩ [strL "a\nb\n"]) =
        some (split_preceded (strL "a\nb\n") (strL "\n") true) :=
  one_shot_engine_equiv (strL "\n") (strL "a\nb\n") true (by decide)

lemma feed_buff_some (cfg : Cfg) (data b₀ : Str) (q : List Str)
    (h : Option Str) (f : Bool) :
    feed cfg data ⟨q, some b₀, h, false, f⟩ =
      splitLoop cfg ((b₀ ++ data).length + 1)
        ⟨q, some (b₀ ++ data), h, false, f⟩ := rfl

lemma runFeeds_sep_retain_concat (sep : Str) (hsep : sep ≠ []) :
    ∀ (chunks : List Str) (q : List Str) (ob oh : Option Str) (of : Bool),
      ∃ s', runFeeds ⟨.separated sep, true⟩ chunks ⟨q, ob, oh, false, of⟩ =
          .ok s' ∧
        s'.items.flatten ++ s'.buff.getD [] =
          q.flatten ++ ob.getD [] ++ chunks.flatten ∧
        s'.closed = false := by
  intro chunks
  induction chunks with
  | nil =>
      intro q ob oh of
      exact ⟨⟨q, ob, oh, false, of⟩, rfl, by simp, rfl⟩
  | cons c rest ih =>
      intro q ob oh of
      simp only [runFeeds]
      rcases ob with _ | b₀
      · rw [feed_buff_none]
        obtain ⟨s₁, h1, h2, h3, _, _⟩ :=
          splitLoop_sep_retain_concat sep hsep (c.length + 1) q (some c) oh
            false of (by simp)
        rw [h1]
        obtain ⟨q₁, ob₁, oh₁, oc₁, of₁⟩ := s₁
        simp only at h2 h3
        subst h3
        obtain ⟨s₂, g1, g2, g3⟩ := ih q₁ ob₁ oh₁ of₁
        refine ⟨s₂, ?_, ?_, g3⟩
        · simpa [bindRes] using g1
        · rw [g2, h2]
          simp
      · rw [feed_buff_some]
        obtain ⟨s₁, h1, h2, h3, _, _⟩ :=
          splitLoop_sep_retain_concat sep hsep ((b₀ ++ c).length + 1) q
            (some (b₀ ++ c)) oh false of (by simp)
        rw [h1]
        obtain ⟨q₁, ob₁, oh₁, oc₁, of₁⟩ := s₁
        simp only at h2 h3
        subst h3
        obtain ⟨s₂, g1, g2, g3⟩ := ih q₁ ob₁ oh₁ of₁
        refine ⟨s₂, ?_, ?_, g3⟩
        · simpa [bindRes] using g1
        · rw [g2, h2]
          simp

/-- C3: round-trip for a `SeparatedSplitter` with `retain`: after feeding
any chunk sequence and closing, the concatenation of all emitted items is
exactly the concatenation of all fed chunks. -/
theorem round_trip_separated (sep : Str) (chunks : List Str)
    (hsep : sep ≠ []) :
    ∃ out, itemsOf (runChunks ⟨.separated sep, true⟩ chunks) = some out ∧
      out.flatten = chunks.flatten := by
  obtain ⟨s₁, h1, h2, h3⟩ :=
    runFeeds_sep_retain_concat sep hsep chunks [] none none true
  unfold runChunks
  rw [show (initSt : St) = ⟨[], none, none, false, true⟩ from rfl, h1]
  simp only [bindRes]
  obtain ⟨q₁, ob₁, oh₁, oc₁, of₁⟩ := s₁
  simp only at h2 h3
  subst h3
  rcases ob₁ with _ | b
  · rw [close_buff_none rfl]
    refine ⟨q₁, rfl, ?_⟩
    simpa using h2
  · rw [close_buff_some]
    obtain ⟨s₂, g1, g2, _, g4, _⟩ :=
      splitLoop_sep_retain_concat sep hsep (b.length + 1) q₁ (some b) oh₁
        true of₁ (by simp)
    rw [g1]
    refine ⟨s₂.items, rfl, ?_⟩
    rw [g4 rfl] at g2
    simp only [Option.getD_none, Option.getD_some, List.append_nil] at g2 h2
    simp only [List.flatten_nil, List.nil_append] at h2
    rw [g2, h2]

/-- Closed corollary of `round_trip_separated` at a concrete separator and
chunk sequence, discharging its hypothesis there. -/
theorem round_trip_separated_witness :
    ∃ out, itemsOf (runChunks ⟨.separated (strL "\n"), true⟩
        [strL "a\nb", strL "\nc"]) = some out ∧
      out.flatten = ([strL "a\nb", strL "\nc"] : List Str).flatten :=
  round_trip_separated (strL "\n") [strL "a\nb", strL "\nc"] (by decide)

lemma applyOp_preserves (cfg : Cfg) (hv : validCfg cfg = true) (op : Op) :
    ∀ s : St, FullInv cfg s →
      ∃ s', applyOp cfg op s = some s' ∧ FullInv cfg s' := by
  obtain ⟨v, retain⟩ := cfg
  intro s hinv
  obtain ⟨q, ob, oh, oc, of⟩ := s
  obtain ⟨hclosed, hmatch, hhold⟩ := hinv
  cases op with
  | get =>
      rcases q with _ | ⟨x, rest⟩
      · exact ⟨_, rfl, And.intro hclosed (And.intro hmatch hhold)⟩
      · exact ⟨_, rfl, And.intro hclosed (And.intro hmatch hhold)⟩
  | getall => exact ⟨_, rfl, And.intro hclosed (And.intro hmatch hhold)⟩
  | reset =>
      refine ⟨initSt, rfl, ?_⟩
      cases v with
      | terminated sep => exact And.intro (fun h => nomatch h) (And.intro (fun b hb => nomatch hb) rfl)
      | separated sep => exact And.intro (fun h => nomatch h) (And.intro (fun b hb => nomatch hb) rfl)
      | preceded sep =>
          refine And.intro (fun h => nomatch h)
            (And.intro (fun b hb => nomatch hb) ?_)
          by_cases hr : retain = true
          · simp [initSt, hr]
          · simp [initSt, hr]
      | universalNewline t => exact And.intro (fun h => nomatch h) (And.intro trivial rfl)
  | close =>
      by_cases hc : oc = true
      · subst hc
        have hbn : ob = none := hclosed rfl
        subst hbn
        have hcl : close ⟨v, retain⟩ ⟨q, none, oh, true, of⟩ =
            .ok ⟨q, none, oh, true, of⟩ :=
          @close_buff_none ⟨v, retain⟩ ⟨q, none, oh, true, of⟩ rfl
        exact ⟨⟨q, none, oh, true, of⟩, by simp [applyOp, hcl],
          And.intro hclosed (And.intro hmatch hhold)⟩
      · have hcf : oc = false := by
          rcases oc with _ | _
          · rfl
          · exact absurd rfl hc
        subst hcf
        rcases ob with _ | b
        · have hcl : close ⟨v, retain⟩ ⟨q, none, oh, false, of⟩ =
              .ok ⟨q, none, oh, true, of⟩ :=
            @close_buff_none ⟨v, retain⟩ ⟨q, none, oh, false, of⟩ rfl
          refine ⟨⟨q, none, oh, true, of⟩, by simp [applyOp, hcl],
            And.intro (fun _ => rfl) (And.intro ?_ ?_)⟩
          · cases v <;> first | exact fun b hb => nomatch hb | trivial
          · cases v with
            | preceded sep =>
                by_cases hr : retain = true
                · rw [if_pos hr] at hhold ⊢
                  have hof : of = true := hhold.2 rfl rfl
                  have hohn : oh = none := hhold.1.mpr (Or.inl hof)
                  exact ⟨⟨fun _ => Or.inr rfl, fun _ => hohn⟩,
                    fun h => nomatch h⟩
                · rw [if_neg hr] at hhold ⊢
                  exact hhold
            | terminated sep => exact hhold
            | separated sep => exact hhold
            | universalNewline t => exact hhold
        · cases v with
          | terminated sep =>
              have hohn : oh = none := hhold
              subst hohn
              have hfind : findSeparator ⟨.terminated sep, retain⟩ true b =
                  none := by
                simp [findSeparator, hmatch b rfl]
              obtain ⟨q', hq⟩ := flushClose_term_ok sep retain q (some b)
                true of
              have hcl : close ⟨.terminated sep, retain⟩
                  ⟨q, some b, none, false, of⟩ = .ok ⟨q', none, none, true, of⟩ := by
                rw [close_buff_some,
                  splitLoop_closed_no_match _ _ _ _ _ _ hfind]
                simpa using hq
              exact ⟨⟨q', none, none, true, of⟩, by simp [applyOp, hcl],
                And.intro (fun _ => rfl)
                  (And.intro (fun b' hb' => nomatch hb') rfl)⟩
          | separated sep =>
              have hohn : oh = none := hhold
              subst hohn
              have hfind : findSeparator ⟨.separated sep, retain⟩ true b =
                  none := by
                simp [findSeparator, hmatch b rfl]
              obtain ⟨s', h1, h2, h3, h4, h5⟩ :=
                flushClose_separated sep retain q (some b) none true of
              have hcl : close ⟨.separated sep, retain⟩
                  ⟨q, some b, none, false, of⟩ = .ok s' := by
                rw [close_buff_some,
                  splitLoop_closed_no_match _ _ _ _ _ _ hfind]
                exact h1
              refine ⟨s', by simp [applyOp, hcl],
                And.intro (fun _ => h4 rfl)
                  (And.intro ?_ (h5.trans rfl))⟩
              intro b' hb'
              rw [h4 rfl] at hb'
              cases hb'
          | preceded sep =>
              have hpre : retain = true → (oh = none ↔ of = true) := by
                intro hr
                rw [if_pos hr] at hhold
                simpa using hhold.1
              have hpre2 : retain = false → oh = none := by
                intro hr
                rw [if_neg (by simp [hr])] at hhold
                exact hhold
              have hfind : findSeparator ⟨.preceded sep, retain⟩ true b =
                  none := by
                simp [findSeparator, hmatch b rfl]
              obtain ⟨q', hq⟩ := flushClose_prec_ok sep retain q b oh of
                hpre hpre2
              have hcl : close ⟨.preceded sep, retain⟩
                  ⟨q, some b, oh, false, of⟩ = .ok ⟨q', none, none, true, of⟩ := by
                rw [close_buff_some,
                  splitLoop_closed_no_match _ _ _ _ _ _ hfind]
                exact hq
              refine ⟨⟨q', none, none, true, of⟩, by simp [applyOp, hcl],
                And.intro (fun _ => rfl)
                  (And.intro (fun b' hb' => nomatch hb') ?_)⟩
              by_cases hr : retain = true
              · rw [if_pos hr]
                exact ⟨⟨fun _ => Or.inr rfl, fun _ => rfl⟩, fun h => nomatch h⟩
              · rw [if_neg hr]
          | universalNewline t =>
              have hohn : oh = none := hhold
              subst hohn
              obtain ⟨q', ob', of', hq, hcb⟩ := splitLoop_unl_ok t retain
                (b.length + 1) q (some b) true of (by simp)
              have hcl : close ⟨.universalNewline t, retain⟩
                  ⟨q, some b, none, false, of⟩ =
                  .ok ⟨q', ob', none, true, of'⟩ := by
                rw [close_buff_some]
                exact hq
              exact ⟨⟨q', ob', none, true, of'⟩, by simp [applyOp, hcl],
                And.intro (fun _ => hcb rfl) (And.intro trivial rfl)⟩
  | feed d =>
      by_cases hc : oc = true
      · subst hc
        exact ⟨⟨q, ob, oh, true, of⟩, by simp [applyOp, feed],
          And.intro hclosed (And.intro hmatch hhold)⟩
      · have hcf : oc = false := by
          rcases oc with _ | _
          · rfl
          · exact absurd rfl hc
        subst hcf
        obtain ⟨X, hX⟩ : ∃ X, feed ⟨v, retain⟩ d ⟨q, ob, oh, false, of⟩ =
            splitLoop ⟨v, retain⟩ (X.length + 1)
              ⟨q, some X, oh, false, of⟩ := by
          rcases ob with _ | b₀
          · exact ⟨d, rfl⟩
          · exact ⟨b₀ ++ d, rfl⟩
        cases v with
        | terminated sep =>
            have hsep : sep ≠ [] := by simpa [validCfg] using hv
            have hohn : oh = none := hhold
            subst hohn
            have hchar := splitLoop_term_char sep retain hsep (X.length + 1)
              X q of (by omega)
            have hfeed : feed ⟨.terminated sep, retain⟩ d
                ⟨q, ob, none, false, of⟩ = .ok
                ⟨q ++ termOut retain sep (tokens sep (X.length + 1) X).1,
                 some (tokens sep (X.length + 1) X).2, none, false,
                 of && (tokens sep (X.length + 1) X).1.isEmpty⟩ := by
              rw [hX]
              exact hchar
            refine ⟨⟨q ++ termOut retain sep (tokens sep (X.length + 1) X).1,
                some (tokens sep (X.length + 1) X).2, none, false,
                of && (tokens sep (X.length + 1) X).1.isEmpty⟩,
              by simp [applyOp, hfeed],
              And.intro (fun h => nomatch h) (And.intro ?_ rfl)⟩
            intro b' hb'
            cases hb'
            exact tokens_residual hsep _ _ (by omega)
        | separated sep =>
            have hsep : sep ≠ [] := by simpa [validCfg] using hv
            have hohn : oh = none := hhold
            subst hohn
            have hchar := splitLoop_sep_char sep retain hsep (X.length + 1)
              X q none of (by omega)
            have hfeed : feed ⟨.separated sep, retain⟩ d
                ⟨q, ob, none, false, of⟩ = .ok
                ⟨q ++ sepOut retain sep (tokens sep (X.length + 1) X).1,
                 some (tokens sep (X.length + 1) X).2, none, false,
                 of && (tokens sep (X.length + 1) X).1.isEmpty⟩ := by
              rw [hX]
              exact hchar
            refine ⟨⟨q ++ sepOut retain sep (tokens sep (X.length + 1) X).1,
                some (tokens sep (X.length + 1) X).2, none, false,
                of && (tokens sep (X.length + 1) X).1.isEmpty⟩,
              by simp [applyOp, hfeed],
              And.intro (fun h => nomatch h) (And.intro ?_ rfl)⟩
            intro b' hb'
            cases hb'
            exact tokens_residual hsep _ _ (by omega)
        | preceded sep =>
            have hsep : sep ≠ [] := by simpa [validCfg] using hv
            have hpre : retain = true → (oh = none ↔ of = true) := by
              intro hr
              rw [if_pos hr] at hhold
              simpa using hhold.1
            have hchar := splitLoop_prec_char sep retain hsep (X.length + 1)
              X q oh of (by omega) hpre
            have hfeed : feed ⟨.preceded sep, retain⟩ d
                ⟨q, ob, oh, false, of⟩ = .ok
                ⟨q ++ precOut sep retain of oh (tokens sep (X.length + 1) X).1,
                 some (tokens sep (X.length + 1) X).2,
                 (if (tokens sep (X.length + 1) X).1.isEmpty then oh
                  else if retain then some sep else oh), false,
                 of && (tokens sep (X.length + 1) X).1.isEmpty⟩ := by
              rw [hX]
              exact hchar
            refine ⟨⟨q ++ precOut sep retain of oh
                  (tokens sep (X.length + 1) X).1,
                some (tokens sep (X.length + 1) X).2,
                (if (tokens sep (X.length + 1) X).1.isEmpty then oh
                 else if retain then some sep else oh), false,
                of && (tokens sep (X.length + 1) X).1.isEmpty⟩,
              by simp [applyOp, hfeed],
              And.intro (fun h => nomatch h) (And.intro ?_ ?_)⟩
            · intro b' hb'
              cases hb'
              exact tokens_residual hsep _ _ (by omega)
            · by_cases hr : retain = true
              · rw [if_pos hr] at hhold ⊢
                refine ⟨?_, fun _ h => nomatch h⟩
                by_cases hte : (tokens sep (X.length + 1) X).1.isEmpty = true
                · rw [if_pos hte]
                  simp only [hte, Bool.and_true]
                  simpa using hhold.1
                · rw [if_neg hte, if_pos hr]
                  simp only [Bool.not_eq_true] at hte
                  simp [hte]
              · rw [if_neg hr] at hhold ⊢
                subst hhold
                simp only [Bool.not_eq_true] at hr
                simp [hr]
        | universalNewline t =>
            have hohn : oh = none := hhold
            subst hohn
            obtain ⟨q', ob', of', hq, _⟩ := splitLoop_unl_ok t retain
              (X.length + 1) q (some X) false of (by simp)
            have hfeed : feed ⟨.universalNewline t, retain⟩ d
                ⟨q, ob, none, false, of⟩ = .ok ⟨q', ob', none, false, of'⟩ := by
              rw [hX]
              exact hq
            exact ⟨⟨q', ob', none, false, of'⟩, by simp [applyOp, hfeed],
              And.intro (fun h => nomatch h) (And.intro trivial rfl)⟩

lemma runOps_inv (cfg : Cfg) (hv : validCfg cfg = true) :
    ∀ (ops : List Op) (s : St), FullInv cfg s →
      (runOps cfg ops s).isSome = true := by
  intro ops
  induction ops with
  | nil => intro s _; rfl
  | cons op rest ih =>
      intro s hinv
      obtain ⟨s', h1, h2⟩ := applyOp_preserves cfg hv op s hinv
      simp only [runOps, h1]
      exact ih s' h2

/-- C9: along every sequence of public operations on a splitter built with
valid parameters (feeding, closing, pulling, draining, resetting), no
internal hold-slot assertion ever fails: whenever a variant stores into the
slot it is empty, whenever it glues from the slot it is occupied, and at
most one fragment is held at a time. -/
theorem hold_slot_safety (cfg : Cfg) (ops : List Op)
    (hv : validCfg cfg = true) :
    (runOps cfg ops initSt).isSome = true := by
  refine runOps_inv cfg hv ops initSt ?_
  obtain ⟨v, retain⟩ := cfg
  cases v with
  | terminated sep =>
      exact And.intro (fun h => nomatch h)
        (And.intro (fun b hb => nomatch hb) rfl)
  | separated sep =>
      exact And.intro (fun h => nomatch h)
        (And.intro (fun b hb => nomatch hb) rfl)
  | preceded sep =>
      refine And.intro (fun h => nomatch h)
        (And.intro (fun b hb => nomatch hb) ?_)
      by_cases hr : retain = true
      · simp [initSt, hr]
      · simp [initSt, hr]
  | universalNewline t =>
      exact And.intro (fun h => nomatch h) (And.intro trivial rfl)

/-- Closed corollary of `hold_slot_safety` at a concrete configuration and
operation sequence, discharging its hypothesis there. -/
theorem hold_slot_safety_witness :
    (runOps ⟨.preceded (strL "\n"), true⟩
      [.feed (strL "\na"), .close, .getall, .reset,
       .feed (strL "b\n"), .get, .close] initSt).isSome = true :=
  hold_slot_safety ⟨.preceded (strL "\n"), true⟩
    [.feed (strL "\na"), .close, .getall, .reset,
     .feed (strL "b\n"), .get, .close] (by decide)


/-! Irrelevance of `translate` when separators are not retained. -/

lemma flushClose_translate_irrel (t₁ t₂ : Bool) (s : St) :
    flushClose ⟨.universalNewline t₁, false⟩ s =
      flushClose ⟨.universalNewline t₂, false⟩ s := by
  obtain ⟨q, ob, oh, oc, of⟩ := s
  by_cases hc : oc = true
  · subst hc
    rcases ob with _ | b
    · rfl
    · have hseg : handleSegment ⟨.universalNewline t₁, false⟩ b of true
          q oh =
          handleSegment ⟨.universalNewline t₂, false⟩ b of true q oh := rfl
      simp only [flushClose, hseg]
  · have hcf : oc = false := by
      rcases oc with _ | _
      · rfl
      · exact absurd rfl hc
    subst hcf
    rfl

lemma splitLoop_translate_irrel (t₁ t₂ : Bool) :
    ∀ (fuel : Nat) (s : St), splitLoop ⟨.universalNewline t₁, false⟩ fuel s =
      splitLoop ⟨.universalNewline t₂, false⟩ fuel s := by
  intro fuel
  induction fuel with
  | zero => intro s; rfl
  | succ n ih =>
      intro s
      obtain ⟨q, ob, oh, oc, of⟩ := s
      rcases ob with _ | b
      · exact flushClose_translate_irrel t₁ t₂ ⟨q, none, oh, oc, of⟩
      · by_cases hbe : b.isEmpty = true
        · simp only [splitLoop, if_pos hbe]
          exact flushClose_translate_irrel t₁ t₂ ⟨q, some b, oh, oc, of⟩
        · have hfe : findSeparator ⟨.universalNewline t₁, false⟩ oc b =
              findSeparator ⟨.universalNewline t₂, false⟩ oc b := rfl
          rcases hfind : findSeparator ⟨.universalNewline t₁, false⟩ oc b
            with _ | ⟨st, en⟩
          · have hfind₂ :
                findSeparator ⟨.universalNewline t₂, false⟩ oc b = none :=
              hfe ▸ hfind
            simp only [splitLoop, if_neg hbe, hfind, hfind₂]
            exact flushClose_translate_irrel t₁ t₂ ⟨q, some b, oh, oc, of⟩
          · have hfind₂ : findSeparator ⟨.universalNewline t₂, false⟩ oc b =
                some (st, en) := hfe ▸ hfind
            simp only [splitLoop, if_neg hbe, hfind, hfind₂]
            have hseg : handleSegment ⟨.universalNewline t₁, false⟩
                (b.take st) of false q oh =
                handleSegment ⟨.universalNewline t₂, false⟩
                  (b.take st) of false q oh := rfl
            rw [hseg]
            rcases hsg : handleSegment ⟨.universalNewline t₂, false⟩
              (b.take st) of false q oh with _ | ⟨q₁, h₁⟩
            · simp only [hsg]
            · simp only [hsg]
              have hsp : handleSeparator ⟨.universalNewline t₁, false⟩
                  ((b.drop st).take (en - st)) q₁ h₁ =
                  handleSeparator ⟨.universalNewline t₂, false⟩
                    ((b.drop st).take (en - st)) q₁ h₁ := rfl
              rw [hsp]
              rcases hsp2 : handleSeparator ⟨.universalNewline t₂, false⟩
                ((b.drop st).take (en - st)) q₁ h₁ with _ | ⟨q₂, h₂⟩
              · simp only [hsp2]
              · simp only [hsp2]
                exact ih ⟨q₂, some (b.drop en), h₂, oc, false⟩

lemma feed_translate_irrel (t₁ t₂ : Bool) (d : Str) (s : St) :
    feed ⟨.universalNewline t₁, false⟩ d s =
      feed ⟨.universalNewline t₂, false⟩ d s := by
  obtain ⟨q, ob, oh, oc, of⟩ := s
  by_cases hc : oc = true
  · subst hc
    rfl
  · have hcf : oc = false := by
      rcases oc with _ | _
      · rfl
      · exact absurd rfl hc
    subst hcf
    rcases ob with _ | b₀
    · exact splitLoop_translate_irrel t₁ t₂ (d.length + 1)
        ⟨q, some d, oh, false, of⟩
    · exact splitLoop_translate_irrel t₁ t₂ ((b₀ ++ d).length + 1)
        ⟨q, some (b₀ ++ d), oh, false, of⟩

lemma close_translate_irrel (t₁ t₂ : Bool) (s : St) :
    close ⟨.universalNewline t₁, false⟩ s =
      close ⟨.universalNewline t₂, false⟩ s := by
  obtain ⟨q, ob, oh, oc, of⟩ := s
  rcases ob with _ | b
  · rfl
  · exact splitLoop_translate_irrel t₁ t₂ (b.length + 1)
      ⟨q, some b, oh, true, of⟩

/-- C10: with `retain` off, the `translate` option of
`UniversalNewlineSplitter` has no observable effect: feeding and closing
behave identically for both settings, and every public-operation sequence
run on fresh splitters with the two settings goes through identical states
(hence identical emitted items and identical error behaviour). -/
theorem translate_irrelevant_no_retain (t₁ t₂ : Bool) :
    (∀ (d : Str) (s : St), feed ⟨.universalNewline t₁, false⟩ d s =
        feed ⟨.universalNewline t₂, false⟩ d s) ∧
    (∀ s : St, close ⟨.universalNewline t₁, false⟩ s =
        close ⟨.universalNewline t₂, false⟩ s) ∧
    (∀ (ops : List Op) (s : St),
        runOps ⟨.universalNewline t₁, false⟩ ops s =
          runOps ⟨.universalNewline t₂, false⟩ ops s) := by
  refine ⟨feed_translate_irrel t₁ t₂, close_translate_irrel t₁ t₂, ?_⟩
  intro ops
  induction ops with
  | nil => intro s; rfl
  | cons op rest ih =>
      intro s
      have hop : applyOp ⟨.universalNewline t₁, false⟩ op s =
          applyOp ⟨.universalNewline t₂, false⟩ op s := by
        cases op with
        | feed d => simp [applyOp, feed_translate_irrel t₁ t₂ d s]
        | close => simp [applyOp, close_translate_irrel t₁ t₂ s]
        | get => rfl
        | getall => rfl
        | reset => rfl
      simp only [runOps, hop]
      rcases applyOp ⟨.universalNewline t₂, false⟩ op s with _ | s'
      · rfl
      · exact ih s'


/-! Chunk-boundary invariance for constant separators. -/

lemma splitLoop_fuel_irrel (cfg : Cfg) (hv : validCfg cfg = true) :
    ∀ (f₁ f₂ : Nat) (s : St), (s.buff.getD []).length < f₁ →
      (s.buff.getD []).length < f₂ →
      splitLoop cfg f₁ s = splitLoop cfg f₂ s := by
  intro f₁
  induction f₁ with
  | zero => intro f₂ s h₁ h₂; omega
  | succ n ih =>
      intro f₂ s h₁ h₂
      rcases f₂ with _ | m
      · omega
      · obtain ⟨q, ob, oh, oc, of⟩ := s
        rcases ob with _ | b
        · rfl
        · simp only [Option.getD_some] at h₁ h₂
          by_cases hbe : b.isEmpty = true
          · simp only [splitLoop, if_pos hbe]
          · rcases hfind : findSeparator cfg oc b with _ | ⟨st, en⟩
            · simp only [splitLoop, if_neg hbe, hfind]
            · obtain ⟨hlt, hle⟩ := findSeparator_bounds hv hfind
              simp only [splitLoop, if_neg hbe, hfind]
              rcases hsg : handleSegment cfg (b.take st) of false q oh
                with _ | ⟨q₁, h₁⟩
              · simp only [hsg]
              · simp only [hsg]
                rcases hsp : handleSeparator cfg ((b.drop st).take (en - st))
                  q₁ h₁ with _ | ⟨q₂, h₂⟩
                · simp only [hsp]
                · simp only [hsp]
                  refine ih m ⟨q₂, some (b.drop en), h₂, oc, false⟩ ?_ ?_ <;>
                    simp only [Option.getD_some, List.length_drop] <;> omega

lemma findSeparator_const_stable {cfg : Cfg}
    (hconst : isConstant cfg.variant = true) (hv : validCfg cfg = true)
    {c : Bool} {X : Str} {st en : Nat} (b : Str)
    (h : findSeparator cfg c X = some (st, en)) :
    findSeparator cfg c (X ++ b) = some (st, en) := by
  obtain ⟨v, retain⟩ := cfg
  cases v with
  | universalNewline t => simp [isConstant] at hconst
  | terminated sep =>
      have hsep : sep ≠ [] := by simpa [validCfg] using hv
      simp only [findSeparator] at h ⊢
      rcases hi : strIndex sep X with _ | i <;> rw [hi] at h
      · cases h
      · simp only [Option.map_some'] at h
        cases h
        rw [strIndex_append hsep b hi]
        rfl
  | separated sep =>
      have hsep : sep ≠ [] := by simpa [validCfg] using hv
      simp only [findSeparator] at h ⊢
      rcases hi : strIndex sep X with _ | i <;> rw [hi] at h
      · cases h
      · simp only [Option.map_some'] at h
        cases h
        rw [strIndex_append hsep b hi]
        rfl
  | preceded sep =>
      have hsep : sep ≠ [] := by simpa [validCfg] using hv
      simp only [findSeparator] at h ⊢
      rcases hi : strIndex sep X with _ | i <;> rw [hi] at h
      · cases h
      · simp only [Option.map_some'] at h
        cases h
        rw [strIndex_append hsep b hi]
        rfl


lemma splitLoop_append (cfg : Cfg) (hconst : isConstant cfg.variant = true)
    (hv : validCfg cfg = true) (b : Str) :
    ∀ (f₁ : Nat) (X : Str) (q : List Str) (oh : Option Str) (of : Bool)
      (s₁ : St),
      X.length < f₁ →
      splitLoop cfg f₁ ⟨q, some X, oh, false, of⟩ = .ok s₁ →
      ∃ r, s₁.buff = some r ∧
        ∀ f₂, (X ++ b).length < f₂ →
          splitLoop cfg f₂ ⟨q, some (X ++ b), oh, false, of⟩ =
            splitLoop cfg ((r ++ b).length + 1)
              { s₁ with buff := some (r ++ b) } := by
  intro f₁
  induction f₁ with
  | zero => intro X q oh of s₁ hf hok; omega
  | succ n ih =>
      intro X q oh of s₁ hf hok
      by_cases hX : X.isEmpty = true
      · have hXe : X = [] := List.isEmpty_iff.1 hX
        subst hXe
        have heq : splitLoop cfg (n + 1) ⟨q, some [], oh, false, of⟩ =
            .ok ⟨q, some [], oh, false, of⟩ := rfl
        rw [heq] at hok
        cases hok
        refine ⟨[], rfl, ?_⟩
        intro f₂ hf₂
        exact splitLoop_fuel_irrel cfg hv f₂ (([] ++ b : Str).length + 1)
          ⟨q, some ([] ++ b), oh, false, of⟩ (by simpa using hf₂) (by simp)
      · rcases hfind : findSeparator cfg false X with _ | ⟨st, en⟩
        · have heq : splitLoop cfg (n + 1) ⟨q, some X, oh, false, of⟩ =
              .ok ⟨q, some X, oh, false, of⟩ := by
            simp [splitLoop, hX, hfind, flushClose]
          rw [heq] at hok
          cases hok
          refine ⟨X, rfl, ?_⟩
          intro f₂ hf₂
          exact splitLoop_fuel_irrel cfg hv f₂ ((X ++ b).length + 1)
            ⟨q, some (X ++ b), oh, false, of⟩ (by simpa using hf₂)
            (by simp)
        · obtain ⟨hlt, hle⟩ := findSeparator_bounds hv hfind
          have hXb : ¬ (X ++ b).isEmpty = true := by
            simp only [List.isEmpty_iff] at hX ⊢
            intro hc
            exact hX (List.append_eq_nil.1 hc).1
          have hfind₂ : findSeparator cfg false (X ++ b) = some (st, en) :=
            findSeparator_const_stable hconst hv b hfind
          rcases hsg : handleSegment cfg (X.take st) of false q oh
            with _ | ⟨q₁, h₁⟩
          · have heq : splitLoop cfg (n + 1) ⟨q, some X, oh, false, of⟩ =
                .assertError ⟨q, some X, oh, false, of⟩ := by
              simp [splitLoop, hX, hfind, hsg]
            rw [heq] at hok
            cases hok
          · rcases hsp : handleSeparator cfg ((X.drop st).take (en - st))
              q₁ h₁ with _ | ⟨q₂, h₂⟩
            · have heq : splitLoop cfg (n + 1) ⟨q, some X, oh, false, of⟩ =
                  .assertError ⟨q₁, some X, h₁, false, false⟩ := by
                simp [splitLoop, hX, hfind, hsg, hsp]
              rw [heq] at hok
              cases hok
            · have hstep : splitLoop cfg (n + 1) ⟨q, some X, oh, false, of⟩ =
                  splitLoop cfg n ⟨q₂, some (X.drop en), h₂, false, false⟩ := by
                simp [splitLoop, hX, hfind, hsg, hsp]
              rw [hstep] at hok
              have hXne : X ≠ [] := by
                intro hc; subst hc; simp at hX
              have hfn : (X.drop en).length < n := by
                have : 0 < X.length := List.length_pos.2 hXne
                simp only [List.length_drop]
                omega
              obtain ⟨r, hr, hcont⟩ := ih (X.drop en) q₂ h₂ false s₁ hfn hok
              refine ⟨r, hr, ?_⟩
              intro f₂ hf₂
              rcases f₂ with _ | m
              · omega
              · have htake : (X ++ b).take st = X.take st :=
                  List.take_append_of_le_length (by omega)
                have hsept : ((X ++ b).drop st).take (en - st) =
                    (X.drop st).take (en - st) := by
                  rw [List.drop_append_of_le_length (by omega)]
                  exact List.take_append_of_le_length
                    (by simp only [List.length_drop]; omega)
                have hdrop : (X ++ b).drop en = X.drop en ++ b :=
                  List.drop_append_of_le_length hle
                have hstep₂ : splitLoop cfg (m + 1)
                    ⟨q, some (X ++ b), oh, false, of⟩ =
                    splitLoop cfg m
                      ⟨q₂, some (X.drop en ++ b), h₂, false, false⟩ := by
                  simp [splitLoop, hXb, hfind₂, htake, hsept, hsg, hsp, hdrop]
                rw [hstep₂]
                refine hcont m ?_
                simp only [List.length_append, List.length_drop] at hf₂ ⊢
                omega


lemma fullInv_init (cfg : Cfg) : FullInv cfg initSt := by
  obtain ⟨v, retain⟩ := cfg
  cases v with
  | terminated sep =>
      exact And.intro (fun h => nomatch h)
        (And.intro (fun b hb => nomatch hb) rfl)
  | separated sep =>
      exact And.intro (fun h => nomatch h)
        (And.intro (fun b hb => nomatch hb) rfl)
  | preceded sep =>
      refine And.intro (fun h => nomatch h)
        (And.intro (fun b hb => nomatch hb) ?_)
      by_cases hr : retain = true
      · simp [initSt, hr]
      · simp [initSt, hr]
  | universalNewline t =>
      exact And.intro (fun h => nomatch h) (And.intro trivial rfl)

lemma feed_ok (cfg : Cfg) (hv : validCfg cfg = true) (d : Str) (s : St)
    (hinv : FullInv cfg s) (hc : s.closed = false) :
    ∃ s', feed cfg d s = .ok s' ∧ FullInv cfg s' ∧ s'.closed = false := by
  obtain ⟨s', h1, h2⟩ := applyOp_preserves cfg hv (.feed d) s hinv
  rcases hfeed : feed cfg d s with s₁ | s₁ | s₁
  · have hcl : s₁.closed = false := by
      unfold feed at hfeed
      rw [hc] at hfeed
      simp only [Bool.false_eq_true, if_false] at hfeed
      exact (splitLoop_not_closed_some cfg _ _ s₁ (by rfl) hfeed).1
    have hs : s' = s₁ := by
      simp only [applyOp, hfeed] at h1
      exact (Option.some.inj h1).symm
    subst hs
    exact ⟨s', rfl, h2, hcl⟩
  · exfalso
    unfold feed at hfeed
    rw [hc] at hfeed
    simp only [Bool.false_eq_true, if_false] at hfeed
    exact splitLoop_ne_closedError cfg _ _ s₁ hfeed
  · exfalso
    simp only [applyOp, hfeed] at h1
    cases h1

lemma feed_feed (cfg : Cfg) (hconst : isConstant cfg.variant = true)
    (hv : validCfg cfg = true) (a b : Str) (s s₁ : St)
    (hc : s.closed = false) (hok : feed cfg a s = .ok s₁) :
    feed cfg b s₁ = feed cfg (a ++ b) s := by
  obtain ⟨q, ob, oh, oc, of⟩ := s
  have hoc : oc = false := hc
  subst hoc
  rcases ob with _ | b₀
  · rw [feed_buff_none] at hok
    obtain ⟨r, hr, hcont⟩ := splitLoop_append cfg hconst hv b (a.length + 1)
      a q oh of s₁ (by omega) hok
    have hc₁ : s₁.closed = false :=
      (splitLoop_not_closed_some cfg _ _ s₁ (by rfl) hok).1
    obtain ⟨q₁, ob₁, oh₁, oc₁, of₁⟩ := s₁
    have hob : ob₁ = some r := hr
    subst hob
    have hoc₁ : oc₁ = false := hc₁
    subst hoc₁
    rw [feed_buff_none, feed_buff_some]
    exact (hcont ((a ++ b).length + 1) (by omega)).symm
  · rw [feed_buff_some] at hok
    obtain ⟨r, hr, hcont⟩ := splitLoop_append cfg hconst hv b
      ((b₀ ++ a).length + 1) (b₀ ++ a) q oh of s₁ (by omega) hok
    have hc₁ : s₁.closed = false :=
      (splitLoop_not_closed_some cfg _ _ s₁ (by rfl) hok).1
    obtain ⟨q₁, ob₁, oh₁, oc₁, of₁⟩ := s₁
    have hob : ob₁ = some r := hr
    subst hob
    have hoc₁ : oc₁ = false := hc₁
    subst hoc₁
    rw [feed_buff_some, feed_buff_some]
    have hassoc : b₀ ++ (a ++ b) = b₀ ++ a ++ b :=
      (List.append_assoc b₀ a b).symm
    rw [hassoc]
    exact (hcont ((b₀ ++ a ++ b).length + 1) (by omega)).symm

lemma runFeeds_concat (cfg : Cfg) (hconst : isConstant cfg.variant = true)
    (hv : validCfg cfg = true) :
    ∀ (chunks : List Str) (s : St), FullInv cfg s → s.closed = false →
      chunks ≠ [] →
      runFeeds cfg chunks s = feed cfg chunks.flatten s := by
  intro chunks
  induction chunks with
  | nil => intro s _ _ hne; exact absurd rfl hne
  | cons c rest ih =>
      intro s hinv hc _
      obtain ⟨s₁, hfeed, hinv₁, hc₁⟩ := feed_ok cfg hv c s hinv hc
      rcases rest with _ | ⟨c₂, rest₂⟩
      · have hfl : ([c] : List Str).flatten = c := by simp
        simp only [runFeeds, hfl, hfeed, bindRes]
      · have ihh := ih s₁ hinv₁ hc₁ (by simp)
        have hfl : ((c :: c₂ :: rest₂ : List Str)).flatten =
            c ++ (c₂ :: rest₂ : List Str).flatten := by simp
        calc runFeeds cfg (c :: c₂ :: rest₂) s
            = bindRes (feed cfg c s) (runFeeds cfg (c₂ :: rest₂)) := rfl
          _ = runFeeds cfg (c₂ :: rest₂) s₁ := by rw [hfeed]; rfl
          _ = feed cfg (c₂ :: rest₂ : List Str).flatten s₁ := ihh
          _ = feed cfg (c ++ (c₂ :: rest₂ : List Str).flatten) s :=
              feed_feed cfg hconst hv c ((c₂ :: rest₂ : List Str).flatten)
                s s₁ hc hfeed
          _ = feed cfg ((c :: c₂ :: rest₂ : List Str)).flatten s := by
              rw [hfl]

/-- Counterexample to C1 as stated: the empty list of chunks is a
partition of the empty string, yet feeding no chunks and ending a
`SeparatedSplitter` yields no items, while feeding the empty string once
and ending yields one empty item. -/
theorem chunk_invariance_counterexample :
    runChunks ⟨.separated (strL "\n"), false⟩ [] ≠
      runChunks ⟨.separated (strL "\n"), false⟩
        [([] : List Str).flatten] := by decide

/-- C1 (amended): chunk-boundary invariance for fixed non-empty literal
delimiters, for every non-empty list of chunks — feeding the chunks in
order to a fresh splitter and then ending gives exactly the same result as
feeding their concatenation in a single feed call and then ending.  (The
empty chunk list is excluded: with zero feeds the splitter never acquires
buffer content, so ending it emits nothing, unlike one feed of `""`.) -/
theorem chunk_boundary_invariance (cfg : Cfg) (chunks : List Str)
    (hconst : isConstant cfg.variant = true) (hv : validCfg cfg = true)
    (hne : chunks ≠ []) :
    runChunks cfg chunks = runChunks cfg [chunks.flatten] := by
  unfold runChunks
  rw [runFeeds_concat cfg hconst hv chunks initSt (fullInv_init cfg) rfl hne,
    runFeeds_concat cfg hconst hv [chunks.flatten] initSt (fullInv_init cfg)
      rfl (by simp),
    show ([chunks.flatten] : List Str).flatten = chunks.flatten by simp]

/-- Closed corollary of `chunk_boundary_invariance` at a concrete
configuration and chunk list, discharging its hypotheses there. -/
theorem chunk_boundary_invariance_witness :
    runChunks ⟨.terminated (strL "\n"), true⟩ [strL "a\n", strL "b"] =
      runChunks ⟨.terminated (strL "\n"), true⟩
        [([strL "a\n", strL "b"] : List Str).flatten] :=
  chunk_boundary_invariance ⟨.terminated (strL "\n"), true⟩
    [strL "a\n", strL "b"] (by decide) (by decide) (by decide)


end Linesep
